import Mathlib

def isLeap (y : Int) : Bool := (y % 4 == 0 && y % 100 != 0) || y % 400 == 0

def daysInMonth (y m : Int) : Int :=
  if m = 2 then (if isLeap y then 29 else 28)
  else if m = 4 ∨ m = 6 ∨ m = 9 ∨ m = 11 then 30 else 31

def daysToYoe (y : Int) : Int := 365*y + y/4 - y/100 + y/400

def monthStartD (mp : Int) : Int := (153 * mp + 2) / 5

def daysToYear (yy : Int) : Int := (yy / 400) * 146097 + daysToYoe (yy % 400)

def toDays (y m d : Int) : Int :=
  daysToYear (if m ≤ 2 then y - 1 else y) + monthStartD ((m + 9) % 12) + d - 1 - 719468

def mdFromDoy (doy : Int) : Int × Int :=
  ((5 * doy + 2) / 153, doy - monthStartD ((5 * doy + 2) / 153) + 1)

def yoeFromDoe (doe : Int) : Int :=
  if daysToYoe (doe / 366 + 1) ≤ doe then doe / 366 + 1 else doe / 366

def fromDays (z : Int) : Int × Int × Int :=
  let era := (z + 719468) / 146097
  let doe := (z + 719468) - era * 146097
  let yoe := yoeFromDoe doe
  let doy := doe - daysToYoe yoe
  let md := mdFromDoy doy
  let m := if md.1 ≤ 9 then md.1 + 3 else md.1 - 9
  (if m ≤ 2 then era * 400 + yoe + 1 else era * 400 + yoe, m, md.2)

example : toDays 1970 1 1 = 0 := by decide

example : fromDays 0 = (1970, 1, 1) := by decide

example : fromDays 11016 = (2000, 2, 29) := by decide

example : fromDays (-14488 - 3) = (1930, 4, 30) := by decide

def validYMD (y m d : Int) : Prop := 1 ≤ m ∧ m ≤ 12 ∧ 1 ≤ d ∧ d ≤ daysInMonth y m

/-!
## Date-time values and the moment.js operations used by the converter

The source (`src/edtf-converter.ts`) manipulates dates through the moment.js
library: `moment.utc(cleanEdtf, format)`, `subtract(variance, unit)`,
`add(variance, unit)`, `startOf(unit)`, `endOf(unit)`.  We model an instant as
calendar fields (proleptic Gregorian, UTC) plus milliseconds within the day;
an invalid moment (calendar-overflowing input) is `Option.none`.
-/

structure DT where
  y : Int
  m : Int
  d : Int
  ms : Int

deriving DecidableEq

/-- Instant order on date-time values: lexicographic on (year, month, day, ms),
which on valid calendar data coincides with timestamp order. -/
def DT.lexLe (a b : DT) : Prop :=
  a.y < b.y ∨ (a.y = b.y ∧ (a.m < b.m ∨ (a.m = b.m ∧ (a.d < b.d ∨ (a.d = b.d ∧ a.ms ≤ b.ms)))))

instance (a b : DT) : Decidable (DT.lexLe a b) := by
  unfold DT.lexLe; infer_instance

inductive DateUnit
  | year
  | month
  | day

deriving DecidableEq

/-- The three `format` values of the source: 'YYYY' | 'YYYY-MM' | 'YYYY-MM-DD'. -/
inductive EdtfFormat
  | yyyy
  | yyyymm
  | yyyymmdd

deriving DecidableEq

def endOfDayMs : Int := 86399999

/-- moment `subtract(v, 'years')`: shift the year, clamping the day of month. -/
def subYears (v : Int) (t : DT) : DT :=
  ⟨t.y - v, t.m, min t.d (daysInMonth (t.y - v) t.m), t.ms⟩

/-- moment `subtract(v, 'months')`: shift the month count, clamping the day of month. -/
def subMonths (v : Int) (t : DT) : DT :=
  let k := 12 * t.y + (t.m - 1) - v
  ⟨k / 12, k % 12 + 1, min t.d (daysInMonth (k / 12) (k % 12 + 1)), t.ms⟩

/-- moment `subtract(v, 'days')`: shift the day number. -/
def subDays (v : Int) (t : DT) : DT :=
  ⟨(fromDays (toDays t.y t.m t.d - v)).1, (fromDays (toDays t.y t.m t.d - v)).2.1,
    (fromDays (toDays t.y t.m t.d - v)).2.2, t.ms⟩

def dtSub (v : Int) (u : DateUnit) (t : DT) : DT :=
  match u with
  | .year => subYears v t
  | .month => subMonths v t
  | .day => subDays v t

/-- moment `add(v, unit)` = `subtract(-v, unit)`. -/
def dtAdd (v : Int) (u : DateUnit) (t : DT) : DT := dtSub (-v) u t

/-- moment `startOf(unit)` (UTC). -/
def startOf (u : DateUnit) (t : DT) : DT :=
  match u with
  | .year => ⟨t.y, 1, 1, 0⟩
  | .month => ⟨t.y, t.m, 1, 0⟩
  | .day => ⟨t.y, t.m, t.d, 0⟩

/-- moment `endOf(unit)` (UTC). -/
def endOf (u : DateUnit) (t : DT) : DT :=
  match u with
  | .year => ⟨t.y, 12, 31, endOfDayMs⟩
  | .month => ⟨t.y, t.m, daysInMonth t.y t.m, endOfDayMs⟩
  | .day => ⟨t.y, t.m, t.d, endOfDayMs⟩

def digitVal (c : Char) : Int := (c.toNat : Int) - 48

def num2 (a b : Char) : Int := 10 * digitVal a + digitVal b

def num4 (a b c d : Char) : Int :=
  1000 * digitVal a + 100 * digitVal b + 10 * digitVal c + digitVal d

/-- `moment.utc(cleanEdtf, format)`: parse the cleaned segment under the chosen
format template.  A string not matching the template, or with out-of-range
month/day fields (moment's overflow check), yields an invalid moment (`none`). -/
def momentParse (clean : List Char) : EdtfFormat → Option DT
  | .yyyy =>
    match clean with
    | [a, b, c, d] =>
      if (a.isDigit && b.isDigit && c.isDigit && d.isDigit) = true then
        some ⟨num4 a b c d, 1, 1, 0⟩
      else none
    | _ => none
  | .yyyymm =>
    match clean with
    | [a, b, c, d, h, e, f] =>
      if (a.isDigit && b.isDigit && c.isDigit && d.isDigit && (h = '-' : Bool)
          && e.isDigit && f.isDigit) = true then
        if 1 ≤ num2 e f ∧ num2 e f ≤ 12 then
          some ⟨num4 a b c d, num2 e f, 1, 0⟩
        else none
      else none
    | _ => none
  | .yyyymmdd =>
    match clean with
    | [a, b, c, d, h, e, f, h2, g, i] =>
      if (a.isDigit && b.isDigit && c.isDigit && d.isDigit && (h = '-' : Bool)
          && e.isDigit && f.isDigit && (h2 = '-' : Bool) && g.isDigit && i.isDigit) = true then
        if 1 ≤ num2 e f ∧ num2 e f ≤ 12 ∧ 1 ≤ num2 g i ∧
            num2 g i ≤ daysInMonth (num4 a b c d) (num2 e f) then
          some ⟨num4 a b c d, num2 e f, num2 g i, 0⟩
        else none
      else none
    | _ => none

example : momentParse (String.data "1930") EdtfFormat.yyyy = some ⟨1930, 1, 1, 0⟩ := by decide

example : momentParse (String.data "1930-05-03") EdtfFormat.yyyymmdd = some ⟨1930, 5, 3, 0⟩ := by
  decide

example : momentParse (String.data "1930-02-31") EdtfFormat.yyyymmdd = none := by decide

example : subDays 3 ⟨1930, 5, 3, 0⟩ = ⟨1930, 4, 30, 0⟩ := by decide

example : dtAdd 3 DateUnit.day ⟨1930, 5, 3, 0⟩ = ⟨1930, 5, 6, 0⟩ := by decide

/-!
## The regular expressions of the converter

`validateEdtfPart` tests one anchored regular expression; `parseEdtf` detects
modifiers with four more.  We embed them over `Mathlib`'s `RegularExpression`,
with JavaScript's `\s` modelled by the ASCII whitespace characters.
`RegExp.test` semantics: an unanchored pattern succeeds when any substring
matches, `^`/`$` anchor to a prefix/suffix, and `^...$` forces a full match.
-/

abbrev RE := RegularExpression Char

def reCls (l : List Char) : RE := l.foldr (fun c r => RegularExpression.char c + r) 0

def jsWsChars : List Char := [' ', '\t', '\n', '\r', '\x0b', '\x0c']

def isJsWs (c : Char) : Bool := c ∈ jsWsChars

def wsStar : RE := (reCls jsWsChars).star

def digitsRE : RE := reCls ['0', '1', '2', '3', '4', '5', '6', '7', '8', '9']

/-- `([?~%])` -/
def modRE : RE := reCls ['?', '~', '%']

def optRE (r : RE) : RE := r + 1

/-- `(0[1-9]|1[0-2])` -/
def monthRE : RE :=
  RegularExpression.char '0' * reCls ['1', '2', '3', '4', '5', '6', '7', '8', '9']
  + RegularExpression.char '1' * reCls ['0', '1', '2']

/-- `([0-2][1-9]|3[0-1])` -/
def dayRE : RE :=
  reCls ['0', '1', '2'] * reCls ['1', '2', '3', '4', '5', '6', '7', '8', '9']
  + RegularExpression.char '3' * reCls ['0', '1']

/-- `[0-9]{4}(-(0[1-9]|1[0-2])(-([0-2][1-9]|3[0-1]))?)?` -/
def dateRE : RE :=
  digitsRE * digitsRE * digitsRE * digitsRE *
  optRE (RegularExpression.char '-' * monthRE * optRE (RegularExpression.char '-' * dayRE))

/-- `(${modifier}?\s*${date}\s*${modifier}?)` -/
def sectionRE : RE := optRE modRE * wsStar * dateRE * wsStar * optRE modRE

/-- `(\[(\s*\.\.)?)` -/
def openStartRE : RE :=
  RegularExpression.char '[' *
    optRE (wsStar * RegularExpression.char '.' * RegularExpression.char '.')

/-- `((\.\.\s*)?])` -/
def openEndRE : RE :=
  optRE (RegularExpression.char '.' * RegularExpression.char '.' * wsStar) *
    RegularExpression.char ']'

/-- `^\s*${openStart}?\s*${edtfSection}\s*(\/\s*${edtfSection}|${openEnd}?)?\s*$` -/
def edtfRE : RE :=
  wsStar * optRE openStartRE * wsStar * sectionRE * wsStar *
  optRE (RegularExpression.char '/' * wsStar * sectionRE + optRE openEndRE) * wsStar

/-- `Converter.validateEdtfPart`: test the anchored EDTF grammar, `true` = passes,
`false` = the source throws `Invalid EDTF`. -/
def validatePart (s : List Char) : Bool := edtfRE.rmatch s

/-- `RegExp.test` for an unanchored pattern: some substring matches. -/
def testAnywhere (r : RE) (s : List Char) : Bool :=
  (List.range (s.length + 1)).any fun i =>
    (List.range (s.length + 1)).any fun n => r.rmatch ((s.drop i).take n)

/-- `RegExp.test` for a `^`-anchored pattern: some prefix matches. -/
def testAtStart (r : RE) (s : List Char) : Bool :=
  (List.range (s.length + 1)).any fun n => r.rmatch (s.take n)

/-- `RegExp.test` for a `$`-anchored pattern: some suffix matches. -/
def testAtEnd (r : RE) (s : List Char) : Bool :=
  (List.range (s.length + 1)).any fun i => r.rmatch (s.drop i)

/-- `/[~%]/` -/
def approxRE : RE := reCls ['~', '%']

/-- `/[\?%]/` -/
def uncertainRE : RE := reCls ['?', '%']

/-- `/^\[\s*\.\./` -/
def openStartDetectRE : RE :=
  RegularExpression.char '[' * wsStar * RegularExpression.char '.' * RegularExpression.char '.'

/-- `/\.\.\s*]$/` -/
def openEndDetectRE : RE :=
  RegularExpression.char '.' * RegularExpression.char '.' * wsStar *
    RegularExpression.char ']'

/-- The character class `[\[\.\[\]\?~%\s]` removed when computing `cleanEdtf`. -/
def stripChar (c : Char) : Bool :=
  c = '[' || c = ']' || c = '.' || c = '?' || c = '~' || c = '%' || isJsWs c

example : validatePart (String.data "1930") = true := by decide

example : validatePart (String.data "[..1930]") = true := by decide

example : validatePart (String.data "1930-13") = false := by decide

example : validatePart [] = false := by decide

/-!
## The converter pipeline

Shallow embedding of `Converter.parseEdtf`, `validateEdtf`, `edtfToDate` and
`edtfToText`.  EDTF strings are lists of characters; a thrown `Invalid EDTF`
error is `Except.error` carrying the offending segment.  A custom modifier's
`modifierRegex.test` / `removeModifierFn` pair is modelled by a pair of
functions on segments.
-/

structure CustomModifier where
  keyword : String
  testMod : List Char → Bool
  removeMod : List Char → List Char

structure ApproxVariance where
  days : Int
  months : Int
  years : Int

deriving DecidableEq

structure Options where
  approximateVariance : ApproxVariance
  customModifiers : List CustomModifier

/-- `DEFAULT_OPTIONS` (locale selection is modelled separately). -/
def defaultOptions : Options :=
  { approximateVariance := { days := 3, months := 3, years := 3 }, customModifiers := [] }

structure EdtfPartResult where
  cleanEdtf : List Char
  detectedModifiers : List CustomModifier
  format : EdtfFormat
  hasOpenEnd : Bool
  hasOpenStart : Bool
  isApproximate : Bool
  isUncertain : Bool
  maxDate : Option DT
  minDate : Option DT

structure ParseEdtfResult where
  primaryPart : EdtfPartResult
  secondaryPart : Option EdtfPartResult

/-- The custom-modifier loop of `parseEdtf`: each configured modifier is tested
against the current segment; on a match it is recorded and its removal
transform applied before the next one is tested. -/
def applyCustoms : List CustomModifier → List Char → List CustomModifier × List Char
  | [], s => ([], s)
  | cm :: rest, s =>
    if cm.testMod s then
      ((cm :: (applyCustoms rest (cm.removeMod s)).1), (applyCustoms rest (cm.removeMod s)).2)
    else applyCustoms rest s

/-- Format selection by cleaned-segment length (4 / 7 / otherwise). -/
def formatOf (clean : List Char) : EdtfFormat :=
  if clean.length = 4 then .yyyy else if clean.length = 7 then .yyyymm else .yyyymmdd

def unitOf : EdtfFormat → DateUnit
  | .yyyy => .year
  | .yyyymm => .month
  | .yyyymmdd => .day

def varOf (opts : Options) : EdtfFormat → Int
  | .yyyy => opts.approximateVariance.years
  | .yyyymm => opts.approximateVariance.months
  | .yyyymmdd => opts.approximateVariance.days

/-- The result record built for a validated piece (the body of the map inside
`Converter.parseEdtf` after validation): built-in modifier detection, cleaning,
format selection, date parsing, variance application and unit snapping. -/
def buildPart (opts : Options) (detected : List CustomModifier) (part : List Char) :
    EdtfPartResult :=
  let clean := part.filter fun c => !stripChar c
  let fmt := formatOf clean
  let u := unitOf fmt
  let v := varOf opts fmt
  let isApprox := testAnywhere approxRE part
  let base := momentParse clean fmt
  { cleanEdtf := clean
    detectedModifiers := detected
    format := fmt
    hasOpenEnd := testAtEnd openEndDetectRE part
    hasOpenStart := testAtStart openStartDetectRE part
    isApproximate := isApprox
    isUncertain := testAnywhere uncertainRE part
    maxDate := (base.map fun t => if isApprox then dtAdd v u t else t).map (endOf u)
    minDate := (base.map fun t => if isApprox then dtSub v u t else t).map (startOf u) }

/-- Processing of one `/`-separated piece inside `Converter.parseEdtf`:
custom-modifier stripping, then validation (throwing on failure), then the
result construction of `buildPart`. -/
def processPart (opts : Options) (part0 : List Char) : Except (List Char) EdtfPartResult :=
  if validatePart (applyCustoms opts.customModifiers part0).2 then
    Except.ok
      (buildPart opts (applyCustoms opts.customModifiers part0).1
        (applyCustoms opts.customModifiers part0).2)
  else Except.error (applyCustoms opts.customModifiers part0).2

/-- JavaScript `edtf.split('/')` (keeps empty pieces, including a trailing one). -/
def splitSlash : List Char → List (List Char)
  | [] => [[]]
  | c :: cs =>
    if c = '/' then [] :: splitSlash cs
    else
      match splitSlash cs with
      | [] => [[c]]
      | p :: ps => (c :: p) :: ps

/-- `Converter.parseEdtf`: split on `/`, process every piece (a validation
failure anywhere aborts), keep the first piece as primary and the second, when
present, as secondary. -/
def parseEdtf (opts : Options) (edtf : List Char) : Except (List Char) ParseEdtfResult := do
  let results ← (splitSlash edtf).mapM (processPart opts)
  match results with
  | [] => Except.error edtf
  | p :: rest => Except.ok ⟨p, rest.head?⟩

/-- `Converter.validateEdtf`: validate the first piece, and the second piece
only when it is present and non-empty; later pieces are never looked at. -/
def validateEdtf (edtf : List Char) : Bool :=
  validatePart ((splitSlash edtf).headD []) &&
    (match (splitSlash edtf).drop 1 with
     | [] => true
     | p :: _ => decide (p = []) || validatePart p)

/-- `Converter.edtfToDate`: the combination rule.  In the pair, the outer
`Option` is the JavaScript `null` of `IDate` (open-ended side) and the inner
`Option DT` is the possibly invalid moment. -/
def edtfToDate (opts : Options) (edtf : List Char) :
    Except (List Char) (Option (Option DT) × Option (Option DT)) :=
  (parseEdtf opts edtf).map fun pr =>
    if pr.primaryPart.hasOpenStart then (none, some pr.primaryPart.maxDate)
    else if pr.primaryPart.hasOpenEnd then (some pr.primaryPart.minDate, none)
    else
      (some pr.primaryPart.minDate,
        some (match pr.secondaryPart with
          | some s => s.maxDate
          | none => pr.primaryPart.maxDate))

/-- The merged locale table, as consumed by `edtfToText`.  The locale data
files themselves (`i18n/*.json`) are outside the embedded source; the date
rendering `moment(...).format(dateFormats[0])` is abstracted as a function. -/
structure LocaleData where
  approximate : List String
  uncertain : List String
  openStart : List String
  openEnd : List String
  delimiters : List String
  renderDate : List Char → EdtfFormat → String

/-- One segment of `Converter.edtfToText`: detected custom-modifier keywords,
then open-end, open-start, uncertain and approximate keywords, then the
formatted date, joined by single spaces. -/
def renderPart (ld : LocaleData) (p : EdtfPartResult) : String :=
  String.intercalate " "
    ((p.detectedModifiers.map fun cm => cm.keyword)
      ++ (if p.hasOpenEnd then [ld.openEnd.headD ""] else [])
      ++ (if p.hasOpenStart then [ld.openStart.headD ""] else [])
      ++ (if p.isUncertain then [ld.uncertain.headD ""] else [])
      ++ (if p.isApproximate then [ld.approximate.headD ""] else [])
      ++ [ld.renderDate p.cleanEdtf p.format])

/-- `Converter.edtfToText`: parse, render primary and (when present) secondary
segment, drop only absent/falsy entries, join with the primary delimiter. -/
def edtfToText (opts : Options) (ld : LocaleData) (edtf : List Char) :
    Except (List Char) String :=
  (parseEdtf opts edtf).map fun pr =>
    String.intercalate (" " ++ ld.delimiters.headD "" ++ " ")
      ((([some pr.primaryPart, pr.secondaryPart].map
          (Option.map (renderPart ld))).filterMap id).filter fun s => decide (s ≠ ""))

/-!
## The locale merge customizer

`mergeWith({}, ...locales, customizer)` with the customizer of the constructor:
for list values `uniq(compact(flatten(zip(objValue, srcValue))))`, for string
values `[objValue, srcValue]`.  lodash `zip` interleaves with `undefined`
padding; `compact` drops `undefined` and empty strings; `uniq` keeps first
occurrences.
-/

def padTail (bs : List String) : List (Option String) :=
  (bs.map fun b => [none, some b]).flatten

/-- lodash `flatten(zip(a, b))`: interleave, padding the shorter list with
`undefined` (`none`). -/
def interleavePad : List String → List String → List (Option String)
  | [], bs => padTail bs
  | a :: as, bs => some a :: bs.head? :: interleavePad as bs.tail

/-- lodash `compact`: drop falsy entries (`undefined` and `""`). -/
def compactL (l : List (Option String)) : List String :=
  l.filterMap fun o =>
    match o with
    | none => none
    | some s => if s = "" then none else some s

def uniqFirstAux : List String → List String → List String
  | _, [] => []
  | seen, x :: xs =>
    if x ∈ seen then uniqFirstAux seen xs else x :: uniqFirstAux (x :: seen) xs

/-- lodash `uniq`: drop duplicates, keeping the first occurrence. -/
def uniqFirst (l : List String) : List String := uniqFirstAux [] l

/-- The customizer's list case: `uniq(compact(flatten(zip(objValue, srcValue))))`. -/
def mergeListValues (objValue srcValue : List String) : List String :=
  uniqFirst (compactL (interleavePad objValue srcValue))

/-- The customizer's string case: `[objValue, srcValue]`. -/
def mergeStringValue (objValue srcValue : String) : List String := [objValue, srcValue]

/-- The merge the spec describes: plain concatenation in pack-priority order,
dropping empty and duplicate entries, keeping first-seen order. -/
def mergeListValuesSpec (objValue srcValue : List String) : List String :=
  uniqFirst (compactL ((objValue ++ srcValue).map some))

example : splitSlash (String.data "1930/1935") = [String.data "1930", String.data "1935"] := by
  decide

example : splitSlash (String.data "1930/") = [String.data "1930", []] := by decide

example : validateEdtf (String.data "1930/") = true := by decide

example : mergeListValues ["x", "y"] ["a", "b"] = ["x", "a", "y", "b"] := by decide

example : mergeListValues ["x", ""] ["a", "x"] = ["x", "a"] := by decide

deriving instance DecidableEq for Except

example : (parseEdtf defaultOptions (String.data "1930")).map
    (fun pr => (pr.primaryPart.minDate, pr.primaryPart.maxDate, pr.secondaryPart.isSome))
    = Except.ok (some ⟨1930, 1, 1, 0⟩, some ⟨1930, 12, 31, 86399999⟩, false) := by decide

example : (parseEdtf defaultOptions (String.data "[1930]")).map
    (fun pr => (pr.primaryPart.hasOpenStart, pr.primaryPart.hasOpenEnd))
    = Except.ok (false, false) := by decide

example : (parseEdtf defaultOptions (String.data "~1930-05-03")).map
    (fun pr => (pr.primaryPart.isApproximate, pr.primaryPart.minDate, pr.primaryPart.maxDate))
    = Except.ok (true, some ⟨1930, 4, 30, 0⟩, some ⟨1930, 5, 6, 86399999⟩) := by decide

example : (parseEdtf defaultOptions (String.data "1930/")).map (fun _ => ())
    = Except.error (String.data "") := by decide

example : (parseEdtf defaultOptions (String.data "1930/1935")).map
    (fun pr => (pr.primaryPart.minDate, pr.secondaryPart.map (fun s => s.maxDate)))
    = Except.ok (some ⟨1930, 1, 1, 0⟩, some (some ⟨1935, 12, 31, 86399999⟩)) := by decide

/-- The combination rule exactly as the spec words it: open start wins, then
open end, otherwise the minimum is the primary's and the maximum is the
secondary's when present, else the primary's.  Only the primary's flags are
read. -/
def specCombine (pr : ParseEdtfResult) : Option (Option DT) × Option (Option DT) :=
  if pr.primaryPart.hasOpenStart then (none, some pr.primaryPart.maxDate)
  else if pr.primaryPart.hasOpenEnd then (some pr.primaryPart.minDate, none)
  else
    (some pr.primaryPart.minDate,
      some ((pr.secondaryPart.map fun s => s.maxDate).getD pr.primaryPart.maxDate))

def sampleLocale : LocaleData :=
  { approximate := ["approximately"], uncertain := ["possibly"], openStart := ["from"],
    openEnd := ["until"], delimiters := ["to"], renderDate := fun _ _ => "DATE" }

/-- Characters that can appear in a bare `YYYY-MM-DD`-style piece. -/
def PlainChar (c : Char) : Prop := c.isDigit = true ∨ c = '-'

def monthOKC (a b : Char) : Prop :=
  (a = '0' ∧ b ∈ ['1', '2', '3', '4', '5', '6', '7', '8', '9']) ∨
  (a = '1' ∧ b ∈ ['0', '1', '2'])

def dayOKC (a b : Char) : Prop :=
  (a ∈ ['0', '1', '2'] ∧ b ∈ ['1', '2', '3', '4', '5', '6', '7', '8', '9']) ∨
  (a = '3' ∧ b ∈ ['0', '1'])

instance (a b : Char) : Decidable (monthOKC a b) := by unfold monthOKC; infer_instance

instance (a b : Char) : Decidable (dayOKC a b) := by unfold dayOKC; infer_instance

theorem isLeap_iff (y : Int) : isLeap y = true ↔ ((y % 4 = 0 ∧ y % 100 ≠ 0) ∨ y % 400 = 0) := by
  simp [isLeap]

theorem daysToYoe_mono (a b : Int) (h : a ≤ b) : daysToYoe a ≤ daysToYoe b := by
  simp only [daysToYoe]; omega

theorem yoeFromDoe_spec (doe : Int) (h0 : 0 ≤ doe) (h1 : doe ≤ 146096) :
    0 ≤ yoeFromDoe doe ∧ yoeFromDoe doe ≤ 399 ∧
    daysToYoe (yoeFromDoe doe) ≤ doe ∧ doe < daysToYoe (yoeFromDoe doe + 1) := by
  unfold yoeFromDoe; simp only [daysToYoe]; split_ifs <;> omega

theorem yoeFromDoe_unique (doe yoe : Int) (h0 : 0 ≤ doe) (h1 : doe ≤ 146096)
    (hl : daysToYoe yoe ≤ doe) (hr : doe < daysToYoe (yoe + 1)) :
    yoeFromDoe doe = yoe := by
  obtain ⟨a, b, c, dd⟩ := yoeFromDoe_spec doe h0 h1
  by_contra h
  rcases lt_or_gt_of_ne h with hlt | hgt
  · have := daysToYoe_mono (yoeFromDoe doe + 1) yoe (by omega); omega
  · have := daysToYoe_mono (yoe + 1) (yoeFromDoe doe) (by omega); omega

theorem mdFromDoy_spec (doy mp dd : Int) (h0 : 0 ≤ doy) (h1 : doy ≤ 365)
    (hmd : mdFromDoy doy = (mp, dd)) :
    0 ≤ mp ∧ mp ≤ 11 ∧ 1 ≤ dd ∧
    monthStartD mp + dd - 1 = doy ∧
    (mp ≤ 10 → doy < monthStartD (mp + 1)) := by
  rw [mdFromDoy, Prod.mk.injEq] at hmd
  obtain ⟨hm, hd⟩ := hmd
  subst hm; subst hd
  simp only [monthStartD]
  omega

/-- Evaluate `fromDays` on an era/year-of-era/day-of-year decomposition of its argument. -/
theorem fromDays_decomp (era yoe doy : Int) (hy0 : 0 ≤ yoe) (hy1 : yoe ≤ 399)
    (hd0 : 0 ≤ doy) (hd1 : doy < daysToYoe (yoe + 1) - daysToYoe yoe) :
    fromDays (era * 146097 + daysToYoe yoe + doy - 719468) =
      ((if (if (mdFromDoy doy).1 ≤ 9 then (mdFromDoy doy).1 + 3 else (mdFromDoy doy).1 - 9) ≤ 2
          then era * 400 + yoe + 1 else era * 400 + yoe),
        (if (mdFromDoy doy).1 ≤ 9 then (mdFromDoy doy).1 + 3 else (mdFromDoy doy).1 - 9),
        (mdFromDoy doy).2) := by
  have hyoeB : 0 ≤ daysToYoe yoe ∧ daysToYoe (yoe + 1) ≤ 146097 := by
    simp only [daysToYoe]; omega
  have hw : era * 146097 + daysToYoe yoe + doy - 719468 + 719468
      = era * 146097 + (daysToYoe yoe + doy) := by ring
  have hera : (era * 146097 + (daysToYoe yoe + doy)) / 146097 = era := by omega
  have hsub : era * 146097 + (daysToYoe yoe + doy) - era * 146097 = daysToYoe yoe + doy := by
    ring
  have hyoe : yoeFromDoe (daysToYoe yoe + doy) = yoe :=
    yoeFromDoe_unique _ _ (by omega) (by omega) (by omega) (by omega)
  have hsub2 : daysToYoe yoe + doy - daysToYoe yoe = doy := by ring
  simp only [fromDays, hw, hera, hsub, hyoe, hsub2]

theorem toDays_fromDays_aux (era yoe doy z : Int) (hy0 : 0 ≤ yoe) (hy1 : yoe ≤ 399)
    (hd0 : 0 ≤ doy) (hd1 : doy < daysToYoe (yoe + 1) - daysToYoe yoe)
    (hz : z = era * 146097 + daysToYoe yoe + doy - 719468) :
    toDays (fromDays z).1 (fromDays z).2.1 (fromDays z).2.2 = z := by
  subst hz
  rw [fromDays_decomp era yoe doy hy0 hy1 hd0 hd1]
  have hdoy365 : doy ≤ 365 := by
    have : daysToYoe (yoe + 1) - daysToYoe yoe ≤ 366 := by simp only [daysToYoe]; omega
    omega
  rcases hmd : mdFromDoy doy with ⟨mp, dd⟩
  obtain ⟨s0, s1, s2, s3, s4⟩ := mdFromDoy_spec doy mp dd hd0 hdoy365 hmd
  dsimp only
  rcases le_or_lt mp 9 with hmp | hmp
  · rw [if_pos hmp, if_neg (by omega : ¬ mp + 3 ≤ 2)]
    simp only [toDays, if_neg (by omega : ¬ mp + 3 ≤ 2)]
    rw [show (mp + 3 + 9) % 12 = mp by omega]
    simp only [daysToYear]
    rw [show (era * 400 + yoe) / 400 = era by omega,
        show (era * 400 + yoe) % 400 = yoe by omega]
    omega
  · rw [if_neg (by omega : ¬ mp ≤ 9), if_pos (by omega : mp - 9 ≤ 2)]
    simp only [toDays, if_pos (by omega : mp - 9 ≤ 2)]
    rw [show (mp - 9 + 9) % 12 = mp by omega]
    rw [show era * 400 + yoe + 1 - 1 = era * 400 + yoe by ring]
    simp only [daysToYear]
    rw [show (era * 400 + yoe) / 400 = era by omega,
        show (era * 400 + yoe) % 400 = yoe by omega]
    omega

/-- Roundtrip: converting a day number to a calendar date and back is the identity. -/
theorem toDays_fromDays (z : Int) :
    toDays (fromDays z).1 (fromDays z).2.1 (fromDays z).2.2 = z := by
  have h0 : 0 ≤ z + 719468 - ((z + 719468) / 146097) * 146097 := by omega
  have h1 : z + 719468 - ((z + 719468) / 146097) * 146097 ≤ 146096 := by omega
  obtain ⟨ha, hb, hc, hd⟩ := yoeFromDoe_spec _ h0 h1
  exact toDays_fromDays_aux ((z + 719468) / 146097)
    (yoeFromDoe (z + 719468 - ((z + 719468) / 146097) * 146097))
    ((z + 719468 - ((z + 719468) / 146097) * 146097)
      - daysToYoe (yoeFromDoe (z + 719468 - ((z + 719468) / 146097) * 146097)))
    z ha hb (by omega) (by omega) (by omega)

theorem monthStartD_mono (a b : Int) (h : a ≤ b) : monthStartD a ≤ monthStartD b := by
  unfold monthStartD; omega

theorem monthStartD_nonneg (mp : Int) (h : 0 ≤ mp) : 0 ≤ monthStartD mp := by
  unfold monthStartD; omega

theorem daysToYear_step (yy : Int) :
    daysToYear (yy + 1) = daysToYear yy + (if isLeap (yy + 1) then 366 else 365) := by
  simp only [daysToYear, daysToYoe, isLeap]
  split_ifs <;> simp_all <;> omega

theorem daysToYear_step_ge (yy : Int) : daysToYear yy + 365 ≤ daysToYear (yy + 1) := by
  have := daysToYear_step yy; split_ifs at this <;> omega

theorem daysToYear_mono (a b : Int) (h : a ≤ b) : daysToYear a ≤ daysToYear b := by
  refine Int.le_induction (m := a) (P := fun n => daysToYear a ≤ daysToYear n) le_rfl ?_ b h
  intro n _ ih
  have := daysToYear_step_ge n
  omega

/-- A valid day of a month fits before the start of the next shifted month. -/
theorem dayFitsMonth (y m d : Int) (hm1 : 1 ≤ m) (hm2 : m ≤ 12)
    (hd2 : d ≤ daysInMonth y m) (hmp : (m + 9) % 12 ≤ 10) :
    monthStartD ((m + 9) % 12) + d ≤ monthStartD ((m + 9) % 12 + 1) := by
  interval_cases m <;>
    revert hd2 hmp <;>
    norm_num [daysInMonth, monthStartD] <;>
    omega

/-- `toDays` lands inside the shifted year it belongs to. -/
theorem toDays_bounds (y m d : Int) (hv : validYMD y m d) :
    daysToYear (if m ≤ 2 then y - 1 else y) ≤ toDays y m d + 719468 ∧
    toDays y m d + 719468 < daysToYear ((if m ≤ 2 then y - 1 else y) + 1) := by
  obtain ⟨hm1, hm2, hd1, hd2⟩ := hv
  have hstep := daysToYear_step (if m ≤ 2 then y - 1 else y)
  simp only [toDays]
  constructor
  · have := monthStartD_nonneg ((m + 9) % 12) (by omega); omega
  · rw [hstep]
    rcases le_or_lt m 2 with hm | hm
    · rw [if_pos hm] at *
      rw [show y - 1 + 1 = y by ring]
      interval_cases m
      · revert hd2; norm_num [daysInMonth, monthStartD]
        cases hiL : isLeap y <;> simp [hiL] <;> omega
      · revert hd2; norm_num [daysInMonth, monthStartD]
        cases hiL : isLeap y <;> simp [hiL] <;> omega
    · rw [if_neg (by omega)] at *
      interval_cases m <;>
        (revert hd2; norm_num [daysInMonth, monthStartD]) <;>
        (cases hiL : isLeap (y + 1) <;> simp [hiL] <;> omega)

theorem shiftedLexOf (y m d y' m' d' : Int) (hm1 : 1 ≤ m) (hm2 : m ≤ 12)
    (hm1' : 1 ≤ m') (hm2' : m' ≤ 12)
    (hlex : y < y' ∨ (y = y' ∧ (m < m' ∨ (m = m' ∧ d < d')))) :
    (if m ≤ 2 then y - 1 else y) < (if m' ≤ 2 then y' - 1 else y') ∨
    ((if m ≤ 2 then y - 1 else y) = (if m' ≤ 2 then y' - 1 else y') ∧
      ((m + 9) % 12 < (m' + 9) % 12 ∨ ((m + 9) % 12 = (m' + 9) % 12 ∧ d < d'))) := by
  split_ifs <;> omega

/-- Strict monotonicity of `toDays` with respect to lexicographic date order. -/
theorem toDays_strict (y m d y' m' d' : Int) (hv : validYMD y m d) (hv' : validYMD y' m' d')
    (hlex : y < y' ∨ (y = y' ∧ (m < m' ∨ (m = m' ∧ d < d')))) :
    toDays y m d < toDays y' m' d' := by
  obtain ⟨hb1, hb2⟩ := toDays_bounds y m d hv
  obtain ⟨hb1', hb2'⟩ := toDays_bounds y' m' d' hv'
  obtain ⟨hm1, hm2, hd1, hd2⟩ := hv
  obtain ⟨hm1', hm2', hd1', hd2'⟩ := hv'
  rcases shiftedLexOf y m d y' m' d' hm1 hm2 hm1' hm2' hlex with hyy | ⟨hyy, hmp | ⟨hmp, hdd⟩⟩
  · have := daysToYear_mono ((if m ≤ 2 then y - 1 else y) + 1) (if m' ≤ 2 then y' - 1 else y')
      (by omega)
    omega
  · have hmpB : (m' + 9) % 12 ≤ 11 := by omega
    have hfit := dayFitsMonth y m d hm1 hm2 hd2 (by omega)
    have hmono := monthStartD_mono ((m + 9) % 12 + 1) ((m' + 9) % 12) (by omega)
    simp only [toDays]
    rw [hyy]
    omega
  · simp only [toDays]
    rw [hyy, hmp]
    omega

theorem fromDays_valid_aux (era yoe doy z : Int) (hy0 : 0 ≤ yoe) (hy1 : yoe ≤ 399)
    (hd0 : 0 ≤ doy) (hd1 : doy < daysToYoe (yoe + 1) - daysToYoe yoe)
    (hz : z = era * 146097 + daysToYoe yoe + doy - 719468) :
    validYMD (fromDays z).1 (fromDays z).2.1 (fromDays z).2.2 := by
  subst hz
  rw [fromDays_decomp era yoe doy hy0 hy1 hd0 hd1]
  have hdoy365 : doy ≤ 365 := by
    have : daysToYoe (yoe + 1) - daysToYoe yoe ≤ 366 := by simp only [daysToYoe]; omega
    omega
  rcases hmd : mdFromDoy doy with ⟨mp, dd⟩
  obtain ⟨s0, s1, s2, s3, s4⟩ := mdFromDoy_spec doy mp dd hd0 hdoy365 hmd
  dsimp only
  unfold validYMD
  interval_cases mp <;>
    norm_num [monthStartD] at s3 s4 ⊢ <;>
    norm_num [daysInMonth] <;>
    try omega
  -- leftover: February (mp = 11) leap coupling
  cases hiL : isLeap (era * 400 + yoe + 1) with
  | false =>
    have hnl : ¬ (((era * 400 + yoe + 1) % 4 = 0 ∧ (era * 400 + yoe + 1) % 100 ≠ 0) ∨
        (era * 400 + yoe + 1) % 400 = 0) := by
      rw [← isLeap_iff, hiL]; simp
    simp only [daysToYoe] at hd1
    omega
  | true => simp only [hiL]; norm_num; omega

/-- Every day number converts to a valid calendar date. -/
theorem fromDays_valid (z : Int) :
    validYMD (fromDays z).1 (fromDays z).2.1 (fromDays z).2.2 := by
  have h0 : 0 ≤ z + 719468 - ((z + 719468) / 146097) * 146097 := by omega
  have h1 : z + 719468 - ((z + 719468) / 146097) * 146097 ≤ 146096 := by omega
  obtain ⟨ha, hb, hc, hd⟩ := yoeFromDoe_spec _ h0 h1
  exact fromDays_valid_aux ((z + 719468) / 146097)
    (yoeFromDoe (z + 719468 - ((z + 719468) / 146097) * 146097))
    ((z + 719468 - ((z + 719468) / 146097) * 146097)
      - daysToYoe (yoeFromDoe (z + 719468 - ((z + 719468) / 146097) * 146097)))
    z ha hb (by omega) (by omega) (by omega)

/-- Roundtrip: a valid calendar date converts to a day number and back unchanged. -/
theorem fromDays_toDays (y m d : Int) (hv : validYMD y m d) :
    fromDays (toDays y m d) = (y, m, d) := by
  have hval := fromDays_valid (toDays y m d)
  have hrt := toDays_fromDays (toDays y m d)
  rcases hF : fromDays (toDays y m d) with ⟨a, bc⟩
  rcases hBC : bc with ⟨b, c⟩
  subst hBC
  rw [hF] at hval hrt
  dsimp only at hval hrt
  by_contra hne
  rw [Prod.mk.injEq] at hne
  have htri : (a < y ∨ (a = y ∧ (b < m ∨ (b = m ∧ c < d)))) ∨
      (y < a ∨ (y = a ∧ (m < b ∨ (m = b ∧ d < c)))) := by
    rw [Prod.mk.injEq] at hne
    omega
  rcases htri with h | h
  · have := toDays_strict a b c y m d hval hv h; omega
  · have := toDays_strict y m d a b c hv hval h; omega

/-- `fromDays` is monotone with respect to lexicographic date order. -/
theorem fromDays_le_fromDays (z z' : Int) (h : z ≤ z') :
    (fromDays z).1 < (fromDays z').1 ∨
    ((fromDays z).1 = (fromDays z').1 ∧
      ((fromDays z).2.1 < (fromDays z').2.1 ∨
        ((fromDays z).2.1 = (fromDays z').2.1 ∧ (fromDays z).2.2 ≤ (fromDays z').2.2))) := by
  have hval := fromDays_valid z
  have hval' := fromDays_valid z'
  have hrt := toDays_fromDays z
  have hrt' := toDays_fromDays z'
  by_contra hcon
  push_neg at hcon
  have hlex : (fromDays z').1 < (fromDays z).1 ∨
      ((fromDays z').1 = (fromDays z).1 ∧
        ((fromDays z').2.1 < (fromDays z).2.1 ∨
          ((fromDays z').2.1 = (fromDays z).2.1 ∧ (fromDays z').2.2 < (fromDays z).2.2))) := by
    omega
  have := toDays_strict (fromDays z').1 (fromDays z').2.1 (fromDays z').2.2
    (fromDays z).1 (fromDays z).2.1 (fromDays z).2.2 hval' hval hlex
  omega

theorem processPart_ok (opts : Options) (part0 : List Char) (pr : EdtfPartResult)
    (h : processPart opts part0 = Except.ok pr) :
    validatePart (applyCustoms opts.customModifiers part0).2 = true ∧
    pr = buildPart opts (applyCustoms opts.customModifiers part0).1
      (applyCustoms opts.customModifiers part0).2 := by
  unfold processPart at h
  split at h
  · rename_i hv
    refine ⟨hv, ?_⟩
    injection h with h
    exact h.symm
  · exact absurd h (by simp)

theorem daysInMonth_ge (y m : Int) : 28 ≤ daysInMonth y m := by
  unfold daysInMonth; split_ifs <;> omega

theorem daysInMonth_le (y m : Int) : daysInMonth y m ≤ 31 := by
  unfold daysInMonth; split_ifs <;> omega

/-- A successfully parsed moment has calendar-valid fields and zero time part. -/
theorem momentParse_valid (clean : List Char) (fmt : EdtfFormat) (t : DT)
    (h : momentParse clean fmt = some t) : validYMD t.y t.m t.d ∧ t.ms = 0 := by
  cases fmt <;>
    simp only [momentParse] at h <;>
    split at h <;>
    first
      | exact Option.noConfusion h
      | (split_ifs at h <;>
          first
            | exact Option.noConfusion h
            | (injection h with h; subst h
               refine ⟨⟨?_, ?_, ?_, ?_⟩, rfl⟩ <;>
                 dsimp only <;>
                 first
                   | omega
                   | exact le_trans (by norm_num) (daysInMonth_ge _ _)))

/-- Subtracting zero of the unit then snapping to the unit start is the same as
snapping the original instant (and likewise for adding zero / unit end). -/
theorem shift_zero (u : DateUnit) (t : DT) (hv : validYMD t.y t.m t.d) :
    startOf u (dtSub 0 u t) = startOf u t ∧ endOf u (dtAdd 0 u t) = endOf u t := by
  obtain ⟨hm1, hm2, hd1, hd2⟩ := hv
  have hneg : (-0 : Int) = 0 := by norm_num
  cases u
  case year =>
    constructor <;> simp only [dtSub, dtAdd, subYears, startOf, endOf] <;> congr 1 <;> omega
  case month =>
    have hy : (12 * t.y + (t.m - 1) - 0) / 12 = t.y := by omega
    have hm : (12 * t.y + (t.m - 1) - 0) % 12 + 1 = t.m := by omega
    constructor
    · simp only [dtSub, subMonths, startOf, hy, hm]
    · simp only [dtAdd, hneg, dtSub, subMonths, startOf, endOf, hy, hm]
  case day =>
    have h0 : toDays t.y t.m t.d - 0 = toDays t.y t.m t.d := by omega
    have hrt := fromDays_toDays t.y t.m t.d ⟨hm1, hm2, hd1, hd2⟩
    constructor
    · simp only [dtSub, subDays, startOf, h0, hrt]
    · simp only [dtAdd, hneg, dtSub, subDays, endOf, h0, hrt]

/-- The unit start of the variance-shifted-down instant never exceeds the unit
end of the variance-shifted-up instant (for non-negative variance). -/
theorem shift_min_le_max (u : DateUnit) (v : Int) (t : DT) (hv : 0 ≤ v) :
    DT.lexLe (startOf u (dtSub v u t)) (endOf u (dtAdd v u t)) := by
  cases u
  case year =>
    simp only [dtSub, dtAdd, subYears, startOf, endOf, DT.lexLe]
    have h1 : endOfDayMs = 86399999 := rfl
    omega
  case month =>
    simp only [dtSub, dtAdd, subMonths, startOf, endOf, DT.lexLe]
    have h1 : endOfDayMs = 86399999 := rfl
    have h2 := daysInMonth_ge ((12 * t.y + (t.m - 1) - -v) / 12)
      ((12 * t.y + (t.m - 1) - -v) % 12 + 1)
    omega
  case day =>
    simp only [dtSub, dtAdd, subDays, startOf, endOf, DT.lexLe]
    have h1 : endOfDayMs = 86399999 := rfl
    have h2 := fromDays_le_fromDays (toDays t.y t.m t.d - v) (toDays t.y t.m t.d - -v)
      (by omega)
    omega

/-- The unit start never exceeds the unit end of the same instant. -/
theorem startOf_le_endOf (u : DateUnit) (t : DT) :
    DT.lexLe (startOf u t) (endOf u t) := by
  have h1 : endOfDayMs = 86399999 := rfl
  have h2 := daysInMonth_ge t.y t.m
  cases u <;> simp only [startOf, endOf] <;> unfold DT.lexLe <;> dsimp only <;> omega

/-- C1: for every EDTF string accepted by `parseEdtf`, `edtfToDate` returns the
spec's combination: `{min: null, max: primary.maxInstant}` under `hasOpenStart`,
`{min: primary.minInstant, max: null}` under `hasOpenEnd`, otherwise the
primary's minimum together with the secondary's maximum when a secondary
segment exists (else the primary's); and the rule never consults the secondary
segment's open flags (it reads the secondary only through `maxDate`). -/
theorem claim_C1 :
    (∀ (opts : Options) (edtf : List Char) (pr : ParseEdtfResult),
      parseEdtf opts edtf = Except.ok pr →
      edtfToDate opts edtf = Except.ok (specCombine pr)) ∧
    (∀ (p s s' : EdtfPartResult), s.maxDate = s'.maxDate →
      specCombine ⟨p, some s⟩ = specCombine ⟨p, some s'⟩) := by
  constructor
  · intro opts edtf pr h
    unfold edtfToDate
    rw [h]
    simp only [Except.map]
    congr 1
    unfold specCombine
    split_ifs <;> try rfl
    cases pr.secondaryPart <;> rfl
  · intro p s s' hmax
    unfold specCombine
    dsimp only
    split_ifs <;> simp [hmax]

theorem claim_C1_witness :
    edtfToDate defaultOptions (String.data "1930/1935")
      = Except.ok (specCombine ⟨buildPart defaultOptions [] (String.data "1930"),
          some (buildPart defaultOptions [] (String.data "1935"))⟩) :=
  claim_C1.1 defaultOptions (String.data "1930/1935") _ rfl

/-- C2: for every segment parsed as approximate with configured non-negative
variance `v` in the unit `u` matching the segment's format, the resolved
minimum is the unit start of (base − v·u) and the maximum is the unit end of
(base + v·u); with `v = 0` the result still equals unit-start(base) /
unit-end(base), exactly as for a non-approximate segment. -/
theorem claim_C2 (opts : Options) (part0 : List Char) (pr : EdtfPartResult) (base : DT)
    (h : processPart opts part0 = Except.ok pr)
    (ha : pr.isApproximate = true)
    (hb : momentParse pr.cleanEdtf pr.format = some base)
    (hv : 0 ≤ varOf opts pr.format) :
    pr.minDate = some (startOf (unitOf pr.format)
        (dtSub (varOf opts pr.format) (unitOf pr.format) base)) ∧
    pr.maxDate = some (endOf (unitOf pr.format)
        (dtAdd (varOf opts pr.format) (unitOf pr.format) base)) ∧
    (varOf opts pr.format = 0 →
      pr.minDate = some (startOf (unitOf pr.format) base) ∧
      pr.maxDate = some (endOf (unitOf pr.format) base)) := by
  obtain ⟨hval, hpr⟩ := processPart_ok opts part0 pr h
  have hvld := (momentParse_valid _ _ _ hb).1
  have hmin : pr.minDate = some (startOf (unitOf pr.format)
      (dtSub (varOf opts pr.format) (unitOf pr.format) base)) := by
    subst hpr
    simp only [buildPart] at ha hb ⊢
    rw [hb, ha]
    simp [Option.map]
  have hmax : pr.maxDate = some (endOf (unitOf pr.format)
      (dtAdd (varOf opts pr.format) (unitOf pr.format) base)) := by
    subst hpr
    simp only [buildPart] at ha hb ⊢
    rw [hb, ha]
    simp [Option.map]
  refine ⟨hmin, hmax, fun h0 => ⟨?_, ?_⟩⟩
  · rw [hmin, h0, (shift_zero _ base hvld).1]
  · rw [hmax, h0, (shift_zero _ base hvld).2]

theorem claim_C2_witness :
    ∃ pr : EdtfPartResult,
      processPart defaultOptions (String.data "~1930-05-03") = Except.ok pr ∧
      pr.minDate = some (startOf (unitOf pr.format)
          (dtSub (varOf defaultOptions pr.format) (unitOf pr.format) ⟨1930, 5, 3, 0⟩)) ∧
      pr.minDate = some ⟨1930, 4, 30, 0⟩ ∧ varOf defaultOptions pr.format = 3 := by
  refine ⟨_, rfl, ?_, by decide, by decide⟩
  exact (claim_C2 defaultOptions (String.data "~1930-05-03") _ ⟨1930, 5, 3, 0⟩
    rfl (by decide) (by decide) (by decide)).1

theorem shift_cond_min_le_max (c : Bool) (v : Int) (u : DateUnit) (base : DT) (hv : 0 ≤ v) :
    DT.lexLe (startOf u (if c = true then dtSub v u base else base))
      (endOf u (if c = true then dtAdd v u base else base)) := by
  cases c
  case false => simpa using startOf_le_endOf u base
  case true => simpa using shift_min_le_max u v base hv

/-- C3: for every segment parsed as not approximate, the resolved minimum is
the unit start and the maximum the unit end of the base instant's calendar
unit (so for a year, Jan 1 00:00 through Dec 31 23:59:59.999); and for every
parsed segment, approximate or not, with non-negative variance, the minimum
never exceeds the maximum. -/
theorem claim_C3 (opts : Options) (part0 : List Char) (pr : EdtfPartResult) (base : DT)
    (h : processPart opts part0 = Except.ok pr)
    (hb : momentParse pr.cleanEdtf pr.format = some base)
    (hv : 0 ≤ varOf opts pr.format) :
    (pr.isApproximate = false →
      pr.minDate = some (startOf (unitOf pr.format) base) ∧
      pr.maxDate = some (endOf (unitOf pr.format) base)) ∧
    (∀ mn mx : DT, pr.minDate = some mn → pr.maxDate = some mx → DT.lexLe mn mx) := by
  obtain ⟨hval, hpr⟩ := processPart_ok opts part0 pr h
  constructor
  · intro hna
    subst hpr
    simp only [buildPart] at hna hb ⊢
    rw [hb, hna]
    exact ⟨by simp [Option.map], by simp [Option.map]⟩
  · intro mn mx hmn hmx
    subst hpr
    simp only [buildPart] at hmn hmx hb hv
    rw [hb] at hmn hmx
    simp only [Option.map_some', Option.some.injEq] at hmn hmx
    rw [← hmn, ← hmx]
    exact shift_cond_min_le_max _ _ _ _ hv

theorem claim_C3_witness :
    ∃ pr : EdtfPartResult,
      processPart defaultOptions (String.data "1930") = Except.ok pr ∧
      pr.minDate = some (startOf (unitOf pr.format) ⟨1930, 1, 1, 0⟩) ∧
      pr.minDate = some ⟨1930, 1, 1, 0⟩ ∧
      DT.lexLe ⟨1930, 1, 1, 0⟩ ⟨1930, 12, 31, 86399999⟩ := by
  have hc := claim_C3 defaultOptions (String.data "1930") _ ⟨1930, 1, 1, 0⟩
    rfl (by decide) (by decide)
  refine ⟨_, rfl, (hc.1 (by decide)).1, by decide, ?_⟩
  exact hc.2 ⟨1930, 1, 1, 0⟩ ⟨1930, 12, 31, 86399999⟩ (by decide) (by decide)

theorem reCls_nil : reCls [] = 0 := rfl

theorem reCls_cons (a : Char) (as : List Char) :
    reCls (a :: as) = RegularExpression.char a + reCls as := rfl

theorem rmatch_reCls (l x : List Char) :
    (reCls l).rmatch x = true ↔ ∃ c, c ∈ l ∧ x = [c] := by
  induction l with
  | nil =>
    rw [reCls_nil]
    simp [RegularExpression.zero_rmatch]
  | cons a as ih =>
    rw [reCls_cons, RegularExpression.add_rmatch_iff, RegularExpression.char_rmatch_iff, ih]
    constructor
    · rintro (h | ⟨c, hc, hx⟩)
      · exact ⟨a, by simp, h⟩
      · exact ⟨c, by simp [hc], hx⟩
    · rintro ⟨c, hc, hx⟩
      rcases List.mem_cons.mp hc with h | h
      · exact Or.inl (by rw [hx, h])
      · exact Or.inr ⟨c, h, hx⟩

theorem testAnywhere_cls (l s : List Char) :
    testAnywhere (reCls l) s = true ↔ ∃ c, c ∈ s ∧ c ∈ l := by
  unfold testAnywhere
  simp only [List.any_eq_true, List.mem_range]
  constructor
  · rintro ⟨i, hi, n, hn, hm⟩
    rw [rmatch_reCls] at hm
    obtain ⟨c, hcl, hx⟩ := hm
    have hcmem : c ∈ (s.drop i).take n := by rw [hx]; simp
    exact ⟨c, List.drop_subset i s (List.take_subset n _ hcmem), hcl⟩
  · rintro ⟨c, hcs, hcl⟩
    obtain ⟨i, hi, hgi⟩ := List.mem_iff_getElem.mp hcs
    refine ⟨i, by omega, 1, by omega, ?_⟩
    rw [rmatch_reCls]
    refine ⟨c, hcl, ?_⟩
    rw [List.drop_eq_getElem_cons hi]
    simp [hgi]

/-- C9: after custom-modifier stripping, a segment is flagged approximate
precisely when it contains `~` or `%`, and uncertain precisely when it
contains `?` or `%` — so a single `%` sets both flags, and the two flags are
otherwise driven by the distinct characters `~` and `?`. -/
theorem claim_C9 (opts : Options) (part0 : List Char) (pr : EdtfPartResult)
    (h : processPart opts part0 = Except.ok pr) :
    (pr.isApproximate = true ↔
      ∃ c, c ∈ (applyCustoms opts.customModifiers part0).2 ∧ (c = '~' ∨ c = '%')) ∧
    (pr.isUncertain = true ↔
      ∃ c, c ∈ (applyCustoms opts.customModifiers part0).2 ∧ (c = '?' ∨ c = '%')) := by
  obtain ⟨hval, hpr⟩ := processPart_ok opts part0 pr h
  subst hpr
  simp only [buildPart, approxRE, uncertainRE]
  rw [testAnywhere_cls, testAnywhere_cls]
  constructor <;>
    · constructor <;>
        · rintro ⟨c, hc, hm⟩
          exact ⟨c, hc, by simpa using hm⟩

theorem claim_C9_witness :
    ∃ pr : EdtfPartResult,
      processPart defaultOptions (String.data "%1930") = Except.ok pr ∧
      (pr.isApproximate = true ↔
        ∃ c, c ∈ (applyCustoms defaultOptions.customModifiers (String.data "%1930")).2 ∧
          (c = '~' ∨ c = '%')) ∧
      pr.isApproximate = true ∧ pr.isUncertain = true := by
  refine ⟨_, rfl, ?_, by decide, by decide⟩
  exact (claim_C9 defaultOptions (String.data "%1930") _ rfl).1

theorem some_mem_interleavePad (l : List String) :
    ∀ (l' : List String) (x : String), some x ∈ interleavePad l l' ↔ x ∈ l ∨ x ∈ l' := by
  induction l with
  | nil =>
    intro l' x
    simp only [interleavePad, padTail, List.mem_flatten, List.mem_map]
    constructor
    · rintro ⟨piece, ⟨b, hb, hp⟩, hx⟩
      subst hp
      rcases List.mem_cons.mp hx with h | h
      · exact absurd h (by simp)
      · simp only [List.mem_singleton, Option.some.injEq] at h
        exact Or.inr (h ▸ hb)
    · rintro (h | h)
      · exact absurd h (by simp)
      · exact ⟨[none, some x], ⟨x, h, rfl⟩, by simp⟩
  | cons a as ih =>
    intro l' x
    simp only [interleavePad, List.mem_cons]
    rw [ih l'.tail x]
    cases l' with
    | nil => simp
    | cons b bs =>
      simp only [List.head?, List.tail, List.mem_cons, Option.some.injEq]
      constructor
      · rintro (h | h | h | h) <;> tauto
      · rintro (h | h) <;> tauto

theorem mem_compactL (l : List (Option String)) (x : String) :
    x ∈ compactL l ↔ some x ∈ l ∧ x ≠ "" := by
  simp only [compactL, List.mem_filterMap]
  constructor
  · rintro ⟨o, ho, hox⟩
    match o with
    | none => exact absurd hox (by simp)
    | some s =>
      dsimp only at hox
      by_cases hs : s = ""
      · rw [if_pos hs] at hox
        exact absurd hox (by simp)
      · rw [if_neg hs] at hox
        injection hox with hox
        subst hox
        exact ⟨ho, hs⟩
  · rintro ⟨ho, hx⟩
    refine ⟨some x, ho, ?_⟩
    dsimp only
    rw [if_neg hx]

theorem mem_uniqFirstAux (l : List String) :
    ∀ (seen : List String) (x : String),
      x ∈ uniqFirstAux seen l ↔ x ∈ l ∧ x ∉ seen := by
  induction l with
  | nil => intro seen x; simp [uniqFirstAux]
  | cons a as ih =>
    intro seen x
    simp only [uniqFirstAux]
    split_ifs with ha
    · rw [ih seen x, List.mem_cons]
      constructor
      · rintro ⟨h1, h2⟩; exact ⟨Or.inr h1, h2⟩
      · rintro ⟨h1 | h1, h2⟩
        · exact absurd (h1 ▸ ha) h2
        · exact ⟨h1, h2⟩
    · rw [List.mem_cons, ih (a :: seen) x]
      simp only [List.mem_cons]
      constructor
      · rintro (h | ⟨h1, h2⟩)
        · exact ⟨Or.inl h, h ▸ ha⟩
        · exact ⟨Or.inr h1, fun hx => h2 (Or.inr hx)⟩
      · rintro ⟨h1 | h1, h2⟩
        · exact Or.inl h1
        · by_cases hxa : x = a
          · exact Or.inl hxa
          · exact Or.inr ⟨h1, fun hx => (by tauto : x ∈ a :: seen → False) (by simp [hx])⟩

theorem nodup_uniqFirstAux (l : List String) :
    ∀ seen : List String, (uniqFirstAux seen l).Nodup := by
  induction l with
  | nil => intro seen; simp [uniqFirstAux]
  | cons a as ih =>
    intro seen
    simp only [uniqFirstAux]
    split_ifs with ha
    · exact ih seen
    · rw [List.nodup_cons]
      refine ⟨fun hmem => ?_, ih (a :: seen)⟩
      exact ((mem_uniqFirstAux as (a :: seen) a).mp hmem).2 (by simp)

/-- C6 (amended): when merging locale packs, a key whose existing value is a
list gets the zip-interleaving (not the concatenation) of the two lists, with
empty and duplicate entries dropped and first-seen order preserved — hence the
same set of non-empty entries as concatenating would give, without duplicates;
a key whose existing value is a single string becomes the two-element list of
that string followed by the incoming value. -/
theorem claim_C6 :
    (∀ (l l' : List String) (x : String),
      x ∈ mergeListValues l l' ↔ (x ∈ l ∨ x ∈ l') ∧ x ≠ "") ∧
    (∀ l l' : List String, (mergeListValues l l').Nodup) ∧
    (∀ a b : String, mergeStringValue a b = [a, b]) := by
  refine ⟨fun l l' x => ?_, fun l l' => nodup_uniqFirstAux _ _, fun a b => rfl⟩
  unfold mergeListValues uniqFirst
  rw [mem_uniqFirstAux, mem_compactL, some_mem_interleavePad]
  simp

theorem claim_C6_witness :
    ("y" ∈ mergeListValues ["x", "y"] ["a", "b"] ↔
      (("y" ∈ ["x", "y"] ∨ "y" ∈ ["a", "b"]) ∧ "y" ≠ "")) ∧
    (mergeListValues ["x", "y"] ["a", "b"]).Nodup ∧
    mergeStringValue "x" "a" = ["x", "a"] :=
  ⟨claim_C6.1 ["x", "y"] ["a", "b"] "y", claim_C6.2.1 ["x", "y"] ["a", "b"],
    claim_C6.2.2 "x" "a"⟩

/-- C6 counterexample: the merged list is the interleaving, not the
concatenation the claim states — they differ already on `["x","y"]` and
`["a","b"]`. -/
theorem claim_C6_counterexample :
    mergeListValues ["x", "y"] ["a", "b"] = ["x", "a", "y", "b"] ∧
    mergeListValuesSpec ["x", "y"] ["a", "b"] = ["x", "y", "a", "b"] ∧
    mergeListValues ["x", "y"] ["a", "b"] ≠ mergeListValuesSpec ["x", "y"] ["a", "b"] := by
  exact ⟨by decide, by decide, by decide⟩

theorem splitSlash_ne_nil (x : List Char) : splitSlash x ≠ [] := by
  cases x with
  | nil => simp [splitSlash]
  | cons c cs =>
    simp only [splitSlash]
    split_ifs
    · simp
    · cases h : splitSlash cs <;> simp

theorem splitSlash_no_slash (p : List Char) (hp : '/' ∉ p) : splitSlash p = [p] := by
  induction p with
  | nil => rfl
  | cons c cs ih =>
    have h1 : ¬ c = '/' := fun h => hp (by simp [h])
    have h2 : '/' ∉ cs := fun h => hp (by simp [h])
    simp only [splitSlash, if_neg h1]
    rw [ih h2]

theorem splitSlash_append (p rest : List Char) (hp : '/' ∉ p) :
    splitSlash (p ++ '/' :: rest) = p :: splitSlash rest := by
  induction p with
  | nil => simp [splitSlash]
  | cons c cs ih =>
    have h1 : ¬ c = '/' := fun h => hp (by simp [h])
    have h2 : '/' ∉ cs := fun h => hp (by simp [h])
    simp only [List.cons_append, splitSlash, if_neg h1]
    rw [show cs.append ('/' :: rest) = cs ++ '/' :: rest from rfl, ih h2]

theorem processPart_invalid (opts : Options) (p : List Char)
    (hbad : validatePart (applyCustoms opts.customModifiers p).2 = false) :
    processPart opts p = Except.error (applyCustoms opts.customModifiers p).2 := by
  unfold processPart
  rw [hbad]
  simp

/-- C7 (amended): `edtfToText` does not silently drop an invalid segment: a
segment that fails grammar validation makes the whole call fail with the same
error `parseEdtf` raises (only an absent secondary segment is omitted from the
rendered output). -/
theorem claim_C7 (opts : Options) (ld : LocaleData) (p1 p2 : List Char)
    (h1 : '/' ∉ p1) (h2 : '/' ∉ p2)
    (hbad : validatePart (applyCustoms opts.customModifiers p2).2 = false) :
    (∃ e, parseEdtf opts (p1 ++ '/' :: p2) = Except.error e) ∧
    (∀ e, parseEdtf opts (p1 ++ '/' :: p2) = Except.error e →
      edtfToText opts ld (p1 ++ '/' :: p2) = Except.error e) := by
  have hsplit : splitSlash (p1 ++ '/' :: p2) = [p1, p2] := by
    rw [splitSlash_append p1 p2 h1, splitSlash_no_slash p2 h2]
  constructor
  · unfold parseEdtf
    rw [hsplit]
    simp only [List.mapM_cons, List.mapM_nil]
    cases hq : processPart opts p1 with
    | error e => exact ⟨e, by simp [hq, Bind.bind, Except.bind]⟩
    | ok r =>
      exact ⟨(applyCustoms opts.customModifiers p2).2,
        by simp [hq, processPart_invalid opts p2 hbad, Bind.bind, Except.bind, Pure.pure]⟩
  · intro e he
    unfold edtfToText
    rw [he]
    rfl

theorem claim_C7_witness :
    ('/' ∉ String.data "2000") ∧
    validatePart (applyCustoms defaultOptions.customModifiers (String.data "13")).2 = false ∧
    (∃ e, parseEdtf defaultOptions (String.data "2000" ++ '/' :: String.data "13")
      = Except.error e) := by
  refine ⟨by decide, by decide, ?_⟩
  exact (claim_C7 defaultOptions sampleLocale (String.data "2000") (String.data "13")
    (by decide) (by decide) (by decide)).1

/-- C7 counterexample: on "2000/13" — a valid primary segment and an invalid
secondary one — `edtfToText` does not render the valid segment; it aborts with
the `Invalid EDTF` error. -/
theorem claim_C7_counterexample :
    edtfToText defaultOptions sampleLocale (String.data "2000/13")
      = Except.error (String.data "13") := by decide

/-- C10: a grammar-valid segment followed by a trailing `/` passes
`validateEdtf` (the empty second piece is skipped), while `parseEdtf` — and
hence `edtfToDate` and `edtfToText`, which call it — fails on the empty second
piece; so `validateEdtf` accepting an input does not guarantee the other
public operations accept it. -/
theorem claim_C10 (opts : Options) (ld : LocaleData) (s : List Char)
    (hv : validatePart s = true) (hs : '/' ∉ s) (hc : opts.customModifiers = []) :
    validateEdtf (s ++ ['/']) = true ∧
    parseEdtf opts (s ++ ['/']) = Except.error [] ∧
    edtfToDate opts (s ++ ['/']) = Except.error [] ∧
    edtfToText opts ld (s ++ ['/']) = Except.error [] := by
  have hsplit : splitSlash (s ++ ['/']) = [s, []] := by
    rw [show s ++ ['/'] = s ++ '/' :: [] from rfl, splitSlash_append s [] hs]
    rfl
  have hparse : parseEdtf opts (s ++ ['/']) = Except.error [] := by
    unfold parseEdtf
    rw [hsplit]
    simp only [List.mapM_cons, List.mapM_nil]
    have hok : processPart opts s = Except.ok (buildPart opts [] s) := by
      unfold processPart
      rw [hc]
      simp only [applyCustoms]
      rw [hv]
      simp
    have hbad : processPart opts [] = Except.error [] := by
      unfold processPart
      rw [hc]
      simp only [applyCustoms]
      rw [show validatePart [] = false from by decide]
      simp
    simp [hok, hbad, Bind.bind, Except.bind]
  refine ⟨?_, hparse, ?_, ?_⟩
  · unfold validateEdtf
    rw [hsplit]
    simp [hv]
  · unfold edtfToDate
    rw [hparse]
    rfl
  · unfold edtfToText
    rw [hparse]
    rfl

theorem claim_C10_witness :
    validatePart (String.data "1930") = true ∧
    validateEdtf (String.data "1930" ++ ['/']) = true ∧
    parseEdtf defaultOptions (String.data "1930" ++ ['/']) = Except.error [] := by
  refine ⟨by decide, ?_, ?_⟩
  · exact (claim_C10 defaultOptions sampleLocale (String.data "1930")
      (by decide) (by decide) rfl).1
  · exact (claim_C10 defaultOptions sampleLocale (String.data "1930")
      (by decide) (by decide) rfl).2.1

theorem join_map_singleton (x : List Char) : (x.map fun c => [c]).join = x := by
  induction x with
  | nil => rfl
  | cons a as ih => simp [ih]

theorem rmatch_star_cls (l x : List Char) :
    ((reCls l).star).rmatch x = true ↔ ∀ c ∈ x, c ∈ l := by
  rw [RegularExpression.star_rmatch_iff]
  constructor
  · rintro ⟨S, hx, hS⟩
    subst hx
    intro c hc
    rw [List.mem_join] at hc
    obtain ⟨t, ht, hct⟩ := hc
    obtain ⟨-, hm⟩ := hS t ht
    rw [rmatch_reCls] at hm
    obtain ⟨d, hd, htd⟩ := hm
    rw [htd] at hct
    simp only [List.mem_singleton] at hct
    exact hct ▸ hd
  · intro h
    refine ⟨x.map fun c => [c], (join_map_singleton x).symm, ?_⟩
    intro t ht
    simp only [List.mem_map] at ht
    obtain ⟨c, hc, rfl⟩ := ht
    exact ⟨by simp, (rmatch_reCls l [c]).mpr ⟨c, h c hc, rfl⟩⟩

theorem isJsWs_iff (c : Char) : isJsWs c = true ↔ c ∈ jsWsChars := by
  simp [isJsWs]

theorem char_rmatch_self (a : Char) : (RegularExpression.char a).rmatch [a] = true :=
  (RegularExpression.char_rmatch_iff a [a]).mpr rfl

/-- The open-start detection regex `^\[\s*\.\.` holds of exactly the segments
that begin with `[`, optional whitespace, then `..`. -/
theorem testAtStart_openStart (s : List Char) :
    testAtStart openStartDetectRE s = true ↔
      ∃ w rest, s = '[' :: (w ++ '.' :: '.' :: rest) ∧ ∀ c ∈ w, isJsWs c = true := by
  unfold testAtStart
  simp only [List.any_eq_true, List.mem_range]
  constructor
  · rintro ⟨n, hn, hm⟩
    unfold openStartDetectRE at hm
    rw [RegularExpression.mul_rmatch_iff] at hm
    obtain ⟨t123, t4, hsplit4, hm123, hm4⟩ := hm
    rw [RegularExpression.mul_rmatch_iff] at hm123
    obtain ⟨t12, t3, hsplit3, hm12, hm3⟩ := hm123
    rw [RegularExpression.mul_rmatch_iff] at hm12
    obtain ⟨t1, t2, hsplit2, hm1, hm2⟩ := hm12
    rw [RegularExpression.char_rmatch_iff] at hm1 hm3 hm4
    rw [wsStar, rmatch_star_cls] at hm2
    subst hm1; subst hm3; subst hm4
    refine ⟨t2, s.drop n, ?_, fun c hc => (isJsWs_iff c).mpr (hm2 c hc)⟩
    have hs : s = s.take n ++ s.drop n := (List.take_append_drop n s).symm
    rw [hsplit4, hsplit3, hsplit2] at hs
    simpa using hs
  · rintro ⟨w, rest, hs, hw⟩
    refine ⟨w.length + 3, ?_, ?_⟩
    · rw [hs]
      simp
      omega
    · have htake : s.take (w.length + 3) = '[' :: (w ++ ['.', '.']) := by
        rw [hs]
        rw [show w.length + 3 = w.length + 2 + 1 by omega, List.take_succ_cons]
        congr 1
        rw [show w.length + 2 = w.length + 2 by rfl, List.take_append]
        rfl
      rw [htake]
      unfold openStartDetectRE
      rw [RegularExpression.mul_rmatch_iff]
      refine ⟨'[' :: (w ++ ['.']), ['.'], by simp, ?_, char_rmatch_self '.'⟩
      rw [RegularExpression.mul_rmatch_iff]
      refine ⟨'[' :: w, ['.'], by simp, ?_, char_rmatch_self '.'⟩
      rw [RegularExpression.mul_rmatch_iff]
      refine ⟨['['], w, rfl, char_rmatch_self '[', ?_⟩
      rw [wsStar, rmatch_star_cls]
      exact fun c hc => (isJsWs_iff c).mp (hw c hc)

/-- The open-end detection regex `\.\.\s*]$` holds of exactly the segments
that end with `..`, optional whitespace, then `]`. -/
theorem testAtEnd_openEnd (s : List Char) :
    testAtEnd openEndDetectRE s = true ↔
      ∃ front w, s = front ++ '.' :: '.' :: (w ++ [']']) ∧ ∀ c ∈ w, isJsWs c = true := by
  unfold testAtEnd
  simp only [List.any_eq_true, List.mem_range]
  constructor
  · rintro ⟨i, hi, hm⟩
    unfold openEndDetectRE at hm
    rw [RegularExpression.mul_rmatch_iff] at hm
    obtain ⟨t123, t4, hsplit4, hm123, hm4⟩ := hm
    rw [RegularExpression.mul_rmatch_iff] at hm123
    obtain ⟨t12, t3, hsplit3, hm12, hm3⟩ := hm123
    rw [RegularExpression.mul_rmatch_iff] at hm12
    obtain ⟨t1, t2, hsplit2, hm1, hm2⟩ := hm12
    rw [RegularExpression.char_rmatch_iff] at hm1 hm2 hm4
    rw [wsStar, rmatch_star_cls] at hm3
    subst hm1; subst hm2; subst hm4
    refine ⟨s.take i, t3, ?_, fun c hc => (isJsWs_iff c).mpr (hm3 c hc)⟩
    have hs : s = s.take i ++ s.drop i := (List.take_append_drop i s).symm
    rw [hsplit4, hsplit3, hsplit2] at hs
    simpa using hs
  · rintro ⟨front, w, hs, hw⟩
    refine ⟨front.length, ?_, ?_⟩
    · rw [hs]
      simp
      omega
    · have hdrop : s.drop front.length = '.' :: '.' :: (w ++ [']']) := by
        rw [hs, List.drop_left]
      rw [hdrop]
      unfold openEndDetectRE
      rw [RegularExpression.mul_rmatch_iff]
      refine ⟨'.' :: '.' :: w, [']'], by simp, ?_, char_rmatch_self ']'⟩
      rw [RegularExpression.mul_rmatch_iff]
      refine ⟨['.', '.'], w, rfl, ?_, ?_⟩
      · rw [RegularExpression.mul_rmatch_iff]
        exact ⟨['.'], ['.'], rfl, char_rmatch_self '.', char_rmatch_self '.'⟩
      · rw [wsStar, rmatch_star_cls]
        exact fun c hc => (isJsWs_iff c).mp (hw c hc)

/-- C8 (amended): after custom-modifier stripping, `hasOpenStart` is set iff
the segment begins with `[` followed (after optional whitespace) by `..` —
both characters are required, a leading `[` alone does not set it — and
`hasOpenEnd` is set iff the segment ends with `]` preceded (after optional
whitespace) by `..` — a trailing `..` alone does not set it. -/
theorem claim_C8 (opts : Options) (part0 : List Char) (pr : EdtfPartResult)
    (h : processPart opts part0 = Except.ok pr) :
    (pr.hasOpenStart = true ↔
      ∃ w rest, (applyCustoms opts.customModifiers part0).2 = '[' :: (w ++ '.' :: '.' :: rest) ∧
        ∀ c ∈ w, isJsWs c = true) ∧
    (pr.hasOpenEnd = true ↔
      ∃ front w,
        (applyCustoms opts.customModifiers part0).2 = front ++ '.' :: '.' :: (w ++ [']']) ∧
        ∀ c ∈ w, isJsWs c = true) := by
  obtain ⟨hval, hpr⟩ := processPart_ok opts part0 pr h
  subst hpr
  simp only [buildPart]
  exact ⟨testAtStart_openStart _, testAtEnd_openEnd _⟩

theorem claim_C8_witness :
    ∃ pr : EdtfPartResult,
      processPart defaultOptions (String.data "[..1930]") = Except.ok pr ∧
      (pr.hasOpenStart = true ↔
        ∃ w rest,
          (applyCustoms defaultOptions.customModifiers (String.data "[..1930]")).2
            = '[' :: (w ++ '.' :: '.' :: rest) ∧ ∀ c ∈ w, isJsWs c = true) ∧
      pr.hasOpenStart = true ∧ pr.hasOpenEnd = false := by
  refine ⟨_, rfl, ?_, by decide, by decide⟩
  exact (claim_C8 defaultOptions (String.data "[..1930]") _ rfl).1

/-- C8 counterexample: "[1930]" has a leading `[` (and no `..`), is accepted
by the grammar, and yet `hasOpenStart` is not set — a leading `[` alone does
not set the flag. -/
theorem claim_C8_counterexample :
    (parseEdtf defaultOptions (String.data "[1930]")).map
        (fun pr => (pr.primaryPart.hasOpenStart, pr.primaryPart.hasOpenEnd))
      = Except.ok (false, false) := by decide

theorem rmatch_optRE (r : RE) (t : List Char) :
    (optRE r).rmatch t = true ↔ r.rmatch t = true ∨ t = [] := by
  unfold optRE
  rw [RegularExpression.add_rmatch_iff, RegularExpression.one_rmatch_iff]

theorem plain_not_ws (c : Char) (hp : PlainChar c) (hw : c ∈ jsWsChars) : False := by
  simp only [jsWsChars, List.mem_cons, List.not_mem_nil, or_false] at hw
  rcases hp with hp | hp
  · rcases hw with rfl | rfl | rfl | rfl | rfl | rfl <;> simp at hp
  · subst hp
    simp at hw

theorem wsStar_piece_nil (t : List Char) (hm : wsStar.rmatch t = true)
    (hp : ∀ c ∈ t, PlainChar c) : t = [] := by
  rw [wsStar, rmatch_star_cls] at hm
  cases t with
  | nil => rfl
  | cons c cs => exact (plain_not_ws c (hp c (by simp)) (hm c (by simp))).elim

theorem char_mul_head (a : Char) (r : RE) (t : List Char)
    (hm : (RegularExpression.char a * r).rmatch t = true) :
    ∃ rest, t = a :: rest := by
  rw [RegularExpression.mul_rmatch_iff] at hm
  obtain ⟨u, v, he, hu, hv⟩ := hm
  rw [RegularExpression.char_rmatch_iff] at hu
  subst hu
  exact ⟨v, by simp [he]⟩

theorem mul_char_last (a : Char) (r : RE) (t : List Char)
    (hm : (r * RegularExpression.char a).rmatch t = true) :
    a ∈ t := by
  rw [RegularExpression.mul_rmatch_iff] at hm
  obtain ⟨u, v, he, hu, hv⟩ := hm
  rw [RegularExpression.char_rmatch_iff] at hv
  subst hv
  simp [he]

/-- An `openStart` piece made of plain characters is empty. -/
theorem openStart_piece_nil (t : List Char) (hm : (optRE openStartRE).rmatch t = true)
    (hp : ∀ c ∈ t, PlainChar c) : t = [] := by
  rw [rmatch_optRE] at hm
  rcases hm with hm | hm
  · unfold openStartRE at hm
    obtain ⟨rest, hrest⟩ := char_mul_head '[' _ t hm
    rcases hp '[' (by simp [hrest]) with h | h <;> simp at h
  · exact hm

/-- The trailing `(\/...|openEnd?)?` piece made of plain characters is empty. -/
theorem tail_piece_nil (t : List Char)
    (hm : (optRE (RegularExpression.char '/' * wsStar * sectionRE + optRE openEndRE)).rmatch t
      = true)
    (hp : ∀ c ∈ t, PlainChar c) : t = [] := by
  rw [rmatch_optRE] at hm
  rcases hm with hm | hm
  · rw [RegularExpression.add_rmatch_iff] at hm
    rcases hm with hm | hm
    · rw [RegularExpression.mul_rmatch_iff] at hm
      obtain ⟨u, v, he, hu, hv⟩ := hm
      obtain ⟨rest, hrest⟩ := char_mul_head '/' _ u hu
      rcases hp '/' (by simp [he, hrest]) with h | h <;> simp at h
    · rw [rmatch_optRE] at hm
      rcases hm with hm | hm
      · unfold openEndRE at hm
        rcases hp ']' (mul_char_last ']' _ t hm) with h | h <;> simp at h
      · exact hm
  · exact hm

/-- A modifier piece made of plain characters is empty. -/
theorem mod_piece_nil (t : List Char) (hm : (optRE modRE).rmatch t = true)
    (hp : ∀ c ∈ t, PlainChar c) : t = [] := by
  rw [rmatch_optRE] at hm
  rcases hm with hm | hm
  · rw [modRE, rmatch_reCls] at hm
    obtain ⟨c, hc, ht⟩ := hm
    have hpc := hp c (by simp [ht])
    simp only [List.mem_cons, List.not_mem_nil, or_false] at hc
    rcases hc with rfl | rfl | rfl <;> rcases hpc with h | h <;> simp at h
  · exact hm

/-- A section made of plain characters is exactly a date. -/
theorem section_piece_date (t : List Char) (hm : sectionRE.rmatch t = true)
    (hp : ∀ c ∈ t, PlainChar c) : dateRE.rmatch t = true := by
  unfold sectionRE at hm
  rw [RegularExpression.mul_rmatch_iff] at hm
  obtain ⟨u4, t5, he5, hm4, h5⟩ := hm
  rw [RegularExpression.mul_rmatch_iff] at hm4
  obtain ⟨u3, t4, he4, hm3, h4⟩ := hm4
  rw [RegularExpression.mul_rmatch_iff] at hm3
  obtain ⟨u2, t3, he3, hm2, h3⟩ := hm3
  rw [RegularExpression.mul_rmatch_iff] at hm2
  obtain ⟨t1, t2, he2, h1, h2⟩ := hm2
  subst he2; subst he3; subst he4; subst he5
  have hp1 : t1 = [] := mod_piece_nil t1 h1 fun c hc => hp c (by simp [hc])
  have hp2 : t2 = [] := wsStar_piece_nil t2 h2 fun c hc => hp c (by simp [hc])
  have hp4 : t4 = [] := wsStar_piece_nil t4 h4 fun c hc => hp c (by simp [hc])
  have hp5 : t5 = [] := mod_piece_nil t5 h5 fun c hc => hp c (by simp [hc])
  subst hp1; subst hp2; subst hp4; subst hp5
  simpa using h3

/-- On a string of digits and hyphens, passing the whole EDTF grammar forces
the string to be exactly a date. -/
theorem validatePart_plain (s : List Char) (hp : ∀ c ∈ s, PlainChar c)
    (hm : validatePart s = true) : dateRE.rmatch s = true := by
  unfold validatePart edtfRE at hm
  rw [RegularExpression.mul_rmatch_iff] at hm
  obtain ⟨u6, t7, he7, hm6, h7⟩ := hm
  rw [RegularExpression.mul_rmatch_iff] at hm6
  obtain ⟨u5, t6, he6, hm5, h6⟩ := hm6
  rw [RegularExpression.mul_rmatch_iff] at hm5
  obtain ⟨u4, t5, he5, hm4, h5⟩ := hm5
  rw [RegularExpression.mul_rmatch_iff] at hm4
  obtain ⟨u3, t4, he4, hm3, h4⟩ := hm4
  rw [RegularExpression.mul_rmatch_iff] at hm3
  obtain ⟨u2, t3, he3, hm2, h3⟩ := hm3
  rw [RegularExpression.mul_rmatch_iff] at hm2
  obtain ⟨t1, t2, he2, h1, h2⟩ := hm2
  subst he2; subst he3; subst he4; subst he5; subst he6; subst he7
  have hq1 : t1 = [] := wsStar_piece_nil t1 h1 fun c hc => hp c (by simp [hc])
  have hq2 : t2 = [] := openStart_piece_nil t2 h2 fun c hc => hp c (by simp [hc])
  have hq3 : t3 = [] := wsStar_piece_nil t3 h3 fun c hc => hp c (by simp [hc])
  have hq5 : t5 = [] := wsStar_piece_nil t5 h5 fun c hc => hp c (by simp [hc])
  have hq6 : t6 = [] := tail_piece_nil t6 h6 fun c hc => hp c (by simp [hc])
  have hq7 : t7 = [] := wsStar_piece_nil t7 h7 fun c hc => hp c (by simp [hc])
  subst hq1; subst hq2; subst hq3; subst hq5; subst hq6; subst hq7
  simpa using section_piece_date t4 h4 fun c hc => hp c (by simp [hc])

theorem monthRE_shape (t : List Char) (hm : monthRE.rmatch t = true) :
    ∃ a b, t = [a, b] ∧ monthOKC a b := by
  unfold monthRE at hm
  rw [RegularExpression.add_rmatch_iff] at hm
  rcases hm with hm | hm
  · rw [RegularExpression.mul_rmatch_iff] at hm
    obtain ⟨u, v, he, hu, hv⟩ := hm
    rw [RegularExpression.char_rmatch_iff] at hu
    rw [rmatch_reCls] at hv
    obtain ⟨b, hb, hv⟩ := hv
    subst hu; subst hv
    exact ⟨'0', b, by simp [he], Or.inl ⟨rfl, hb⟩⟩
  · rw [RegularExpression.mul_rmatch_iff] at hm
    obtain ⟨u, v, he, hu, hv⟩ := hm
    rw [RegularExpression.char_rmatch_iff] at hu
    rw [rmatch_reCls] at hv
    obtain ⟨b, hb, hv⟩ := hv
    subst hu; subst hv
    exact ⟨'1', b, by simp [he], Or.inr ⟨rfl, hb⟩⟩

theorem dayRE_shape (t : List Char) (hm : dayRE.rmatch t = true) :
    ∃ a b, t = [a, b] ∧ dayOKC a b := by
  unfold dayRE at hm
  rw [RegularExpression.add_rmatch_iff] at hm
  rcases hm with hm | hm
  · rw [RegularExpression.mul_rmatch_iff] at hm
    obtain ⟨u, v, he, hu, hv⟩ := hm
    rw [rmatch_reCls] at hu hv
    obtain ⟨a, ha, hu⟩ := hu
    obtain ⟨b, hb, hv⟩ := hv
    subst hu; subst hv
    exact ⟨a, b, by simp [he], Or.inl ⟨ha, hb⟩⟩
  · rw [RegularExpression.mul_rmatch_iff] at hm
    obtain ⟨u, v, he, hu, hv⟩ := hm
    rw [RegularExpression.char_rmatch_iff] at hu
    rw [rmatch_reCls] at hv
    obtain ⟨b, hb, hv⟩ := hv
    subst hu; subst hv
    exact ⟨'3', b, by simp [he], Or.inr ⟨rfl, hb⟩⟩

/-- Structure of any string matching the date regex: four digits, optionally
`-MM` with grammar-accepted month digits, optionally `-DD` with
grammar-accepted day digits. -/
theorem dateRE_shape (s : List Char) (hm : dateRE.rmatch s = true) :
    ∃ y1 y2 y3 y4 rest, s = y1 :: y2 :: y3 :: y4 :: rest ∧
      (rest = [] ∨ ∃ m1 m2 rest2, rest = '-' :: m1 :: m2 :: rest2 ∧ monthOKC m1 m2 ∧
        (rest2 = [] ∨ ∃ d1 d2, rest2 = ['-', d1, d2] ∧ dayOKC d1 d2)) := by
  unfold dateRE at hm
  rw [RegularExpression.mul_rmatch_iff] at hm
  obtain ⟨u4, t5, he5, hm4, h5⟩ := hm
  rw [RegularExpression.mul_rmatch_iff] at hm4
  obtain ⟨u3, t4, he4, hm3, h4⟩ := hm4
  rw [RegularExpression.mul_rmatch_iff] at hm3
  obtain ⟨u2, t3, he3, hm2, h3⟩ := hm3
  rw [RegularExpression.mul_rmatch_iff] at hm2
  obtain ⟨t1, t2, he2, h1, h2⟩ := hm2
  rw [digitsRE, rmatch_reCls] at h1 h2 h3 h4
  obtain ⟨y1, -, h1⟩ := h1
  obtain ⟨y2, -, h2⟩ := h2
  obtain ⟨y3, -, h3⟩ := h3
  obtain ⟨y4, -, h4⟩ := h4
  subst h1; subst h2; subst h3; subst h4
  subst he2; subst he3; subst he4
  refine ⟨y1, y2, y3, y4, t5, by simp [he5], ?_⟩
  rw [rmatch_optRE] at h5
  rcases h5 with h5 | h5
  · right
    rw [RegularExpression.mul_rmatch_iff] at h5
    obtain ⟨u6, t8, he8, hm6, h8⟩ := h5
    rw [RegularExpression.mul_rmatch_iff] at hm6
    obtain ⟨t6, t7, he7, h6, h7⟩ := hm6
    rw [RegularExpression.char_rmatch_iff] at h6
    subst h6
    obtain ⟨m1, m2, h7s, h7ok⟩ := monthRE_shape t7 h7
    subst h7s
    refine ⟨m1, m2, t8, by simp [he8, he7], h7ok, ?_⟩
    rw [rmatch_optRE] at h8
    rcases h8 with h8 | h8
    · right
      rw [RegularExpression.mul_rmatch_iff] at h8
      obtain ⟨t9, t10, he10, h9, h10⟩ := h8
      rw [RegularExpression.char_rmatch_iff] at h9
      subst h9
      obtain ⟨d1, d2, h10s, h10ok⟩ := dayRE_shape t10 h10
      subst h10s
      exact ⟨d1, d2, by simp [he10], h10ok⟩
    · exact Or.inl h8
  · exact Or.inl h5

theorem monthOKC_bounds (a b : Char) (h : monthOKC a b) :
    1 ≤ num2 a b ∧ num2 a b ≤ 12 := by
  rcases h with ⟨rfl, hb⟩ | ⟨rfl, hb⟩ <;>
    · simp only [List.mem_cons, List.not_mem_nil, or_false] at hb
      rcases hb with rfl | rfl | rfl | rfl | rfl | rfl | rfl | rfl | rfl <;> decide

theorem dayOKC_bounds (a b : Char) (h : dayOKC a b) :
    1 ≤ num2 a b ∧ num2 a b ≤ 31 ∧ num2 a b ≠ 10 ∧ num2 a b ≠ 20 := by
  rcases h with ⟨ha, hb⟩ | ⟨rfl, hb⟩
  · simp only [List.mem_cons, List.not_mem_nil, or_false] at ha hb
    rcases ha with rfl | rfl | rfl <;>
      (rcases hb with rfl | rfl | rfl | rfl | rfl | rfl | rfl | rfl | rfl <;> decide)
  · simp only [List.mem_cons, List.not_mem_nil, or_false] at hb
    rcases hb with rfl | rfl <;> decide

theorem digit_ne_slash (c : Char) (h : c.isDigit = true) : ¬ c = '/' := by
  intro hc; subst hc; exact absurd h (by decide)

theorem validateEdtf_single (s : List Char) (hs : '/' ∉ s) :
    validateEdtf s = validatePart s := by
  unfold validateEdtf
  rw [splitSlash_no_slash s hs]
  simp

theorem digit_mem (c : Char) (h : c.isDigit = true) :
    c ∈ ['0', '1', '2', '3', '4', '5', '6', '7', '8', '9'] := by
  simp only [Char.isDigit, Bool.and_eq_true, decide_eq_true_eq] at h
  obtain ⟨h1, h2⟩ := h
  have hv1 : 48 ≤ c.toNat := h1
  have hv2 : c.toNat ≤ 57 := h2
  interval_cases hn : c.toNat <;>
    · have hc : c = Char.ofNat c.toNat := (Char.ofNat_toNat c).symm
      rw [hn] at hc
      subst hc
      decide

/-- A canonical `YYYY-MM` part whose month digits fall outside the month
alternation is rejected by the validator. -/
theorem validate_ym_month (y1 y2 y3 y4 m1 m2 : Char)
    (hy1 : y1.isDigit = true) (hy2 : y2.isDigit = true) (hy3 : y3.isDigit = true)
    (hy4 : y4.isDigit = true) (hm1 : m1.isDigit = true) (hm2 : m2.isDigit = true)
    (hbad : ¬ monthOKC m1 m2) :
    validateEdtf [y1, y2, y3, y4, '-', m1, m2] = false := by
  have hns : '/' ∉ [y1, y2, y3, y4, '-', m1, m2] := by
    intro hmem
    simp only [List.mem_cons, List.not_mem_nil, or_false] at hmem
    rcases hmem with h | h | h | h | h | h | h
    exacts [digit_ne_slash y1 hy1 h.symm, digit_ne_slash y2 hy2 h.symm,
      digit_ne_slash y3 hy3 h.symm, digit_ne_slash y4 hy4 h.symm,
      absurd h (by decide), digit_ne_slash m1 hm1 h.symm, digit_ne_slash m2 hm2 h.symm]
  rw [validateEdtf_single _ hns]
  cases hv : validatePart [y1, y2, y3, y4, '-', m1, m2] with
  | false => rfl
  | true =>
    exfalso
    have hplain : ∀ c ∈ [y1, y2, y3, y4, '-', m1, m2], PlainChar c := by
      intro c hc
      simp only [List.mem_cons, List.not_mem_nil, or_false] at hc
      rcases hc with rfl | rfl | rfl | rfl | rfl | rfl | rfl
      exacts [Or.inl hy1, Or.inl hy2, Or.inl hy3, Or.inl hy4, Or.inr rfl,
        Or.inl hm1, Or.inl hm2]
    have hd := validatePart_plain _ hplain hv
    obtain ⟨a1, a2, a3, a4, rest, heq, hrest⟩ := dateRE_shape _ hd
    simp only [List.cons.injEq] at heq
    obtain ⟨-, -, -, -, hr⟩ := heq
    rcases hrest with hrest | ⟨b1, b2, rest2, hr2, hok, -⟩
    · rw [hrest] at hr
      simp at hr
    · rw [hr2] at hr
      simp only [List.cons.injEq] at hr
      obtain ⟨-, hb1, hb2, -⟩ := hr
      subst hb1; subst hb2
      exact hbad hok

/-- A canonical `YYYY-MM-DD` part whose day digits fall outside the day
alternation is rejected by the validator. -/
theorem validate_ymd_day (y1 y2 y3 y4 m1 m2 d1 d2 : Char)
    (hy1 : y1.isDigit = true) (hy2 : y2.isDigit = true) (hy3 : y3.isDigit = true)
    (hy4 : y4.isDigit = true) (hm1 : m1.isDigit = true) (hm2 : m2.isDigit = true)
    (hd1 : d1.isDigit = true) (hd2 : d2.isDigit = true)
    (hbad : ¬ dayOKC d1 d2) :
    validateEdtf [y1, y2, y3, y4, '-', m1, m2, '-', d1, d2] = false := by
  have hns : '/' ∉ [y1, y2, y3, y4, '-', m1, m2, '-', d1, d2] := by
    intro hmem
    simp only [List.mem_cons, List.not_mem_nil, or_false] at hmem
    rcases hmem with h | h | h | h | h | h | h | h | h | h
    exacts [digit_ne_slash y1 hy1 h.symm, digit_ne_slash y2 hy2 h.symm,
      digit_ne_slash y3 hy3 h.symm, digit_ne_slash y4 hy4 h.symm,
      absurd h (by decide), digit_ne_slash m1 hm1 h.symm, digit_ne_slash m2 hm2 h.symm,
      absurd h (by decide), digit_ne_slash d1 hd1 h.symm, digit_ne_slash d2 hd2 h.symm]
  rw [validateEdtf_single _ hns]
  cases hv : validatePart [y1, y2, y3, y4, '-', m1, m2, '-', d1, d2] with
  | false => rfl
  | true =>
    exfalso
    have hplain : ∀ c ∈ [y1, y2, y3, y4, '-', m1, m2, '-', d1, d2], PlainChar c := by
      intro c hc
      simp only [List.mem_cons, List.not_mem_nil, or_false] at hc
      rcases hc with rfl | rfl | rfl | rfl | rfl | rfl | rfl | rfl | rfl | rfl
      exacts [Or.inl hy1, Or.inl hy2, Or.inl hy3, Or.inl hy4, Or.inr rfl,
        Or.inl hm1, Or.inl hm2, Or.inr rfl, Or.inl hd1, Or.inl hd2]
    have hd := validatePart_plain _ hplain hv
    obtain ⟨a1, a2, a3, a4, rest, heq, hrest⟩ := dateRE_shape _ hd
    simp only [List.cons.injEq] at heq
    obtain ⟨-, -, -, -, hr⟩ := heq
    rcases hrest with hrest | ⟨b1, b2, rest2, hr2, -, hrest2⟩
    · rw [hrest] at hr
      simp at hr
    · rw [hr2] at hr
      simp only [List.cons.injEq] at hr
      obtain ⟨-, -, -, hr3⟩ := hr
      rcases hrest2 with hrest2 | ⟨e1, e2, hr4, hok⟩
      · rw [hrest2] at hr3
        simp at hr3
      · rw [hr4] at hr3
        simp only [List.cons.injEq] at hr3
        obtain ⟨-, he1, he2, -⟩ := hr3
        subst he1; subst he2
        exact hbad hok

theorem monthOKC_digits (a b : Char) (h : monthOKC a b) :
    a.isDigit = true ∧ b.isDigit = true := by
  rcases h with ⟨rfl, hb⟩ | ⟨rfl, hb⟩ <;>
    · simp only [List.mem_cons, List.not_mem_nil, or_false] at hb
      constructor
      · decide
      · rcases hb with rfl | rfl | rfl | rfl | rfl | rfl | rfl | rfl | rfl <;> decide

theorem dayOKC_digits (a b : Char) (h : dayOKC a b) :
    a.isDigit = true ∧ b.isDigit = true := by
  rcases h with ⟨ha, hb⟩ | ⟨rfl, hb⟩
  · simp only [List.mem_cons, List.not_mem_nil, or_false] at ha hb
    constructor
    · rcases ha with rfl | rfl | rfl <;> decide
    · rcases hb with rfl | rfl | rfl | rfl | rfl | rfl | rfl | rfl | rfl <;> decide
  · simp only [List.mem_cons, List.not_mem_nil, or_false] at hb
    constructor
    · decide
    · rcases hb with rfl | rfl <;> decide

/-- Whatever the date regex accepts, the full anchored EDTF grammar accepts
(take every optional and whitespace piece empty). -/
theorem validatePart_of_date (s : List Char) (hd : dateRE.rmatch s = true) :
    validatePart s = true := by
  have hws : wsStar.rmatch [] = true := by decide
  have hsec : sectionRE.rmatch s = true := by
    unfold sectionRE
    rw [RegularExpression.mul_rmatch_iff]
    refine ⟨s, [], by simp, ?_, (rmatch_optRE _ _).2 (Or.inr rfl)⟩
    rw [RegularExpression.mul_rmatch_iff]
    refine ⟨s, [], by simp, ?_, hws⟩
    rw [RegularExpression.mul_rmatch_iff]
    refine ⟨[], s, by simp, ?_, hd⟩
    rw [RegularExpression.mul_rmatch_iff]
    exact ⟨[], [], by simp, (rmatch_optRE _ _).2 (Or.inr rfl), hws⟩
  unfold validatePart edtfRE
  rw [RegularExpression.mul_rmatch_iff]
  refine ⟨s, [], by simp, ?_, hws⟩
  rw [RegularExpression.mul_rmatch_iff]
  refine ⟨s, [], by simp, ?_, (rmatch_optRE _ _).2 (Or.inr rfl)⟩
  rw [RegularExpression.mul_rmatch_iff]
  refine ⟨s, [], by simp, ?_, hws⟩
  rw [RegularExpression.mul_rmatch_iff]
  refine ⟨[], s, by simp, ?_, hsec⟩
  rw [RegularExpression.mul_rmatch_iff]
  refine ⟨[], [], by simp, ?_, hws⟩
  rw [RegularExpression.mul_rmatch_iff]
  exact ⟨[], [], by simp, hws, (rmatch_optRE _ _).2 (Or.inr rfl)⟩

/-- Any `YYYY-MM-DD` built from digits with month digits in the month
alternation and day digits in the day alternation matches the date regex. -/
theorem dateRE_of_ymd (y1 y2 y3 y4 m1 m2 d1 d2 : Char)
    (hy1 : y1.isDigit = true) (hy2 : y2.isDigit = true) (hy3 : y3.isDigit = true)
    (hy4 : y4.isDigit = true) (hm : monthOKC m1 m2) (hd : dayOKC d1 d2) :
    dateRE.rmatch [y1, y2, y3, y4, '-', m1, m2, '-', d1, d2] = true := by
  have hdig : ∀ c : Char, c.isDigit = true → digitsRE.rmatch [c] = true := fun c hc =>
    (rmatch_reCls _ _).2 ⟨c, digit_mem c hc, rfl⟩
  have hmonth : monthRE.rmatch [m1, m2] = true := by
    unfold monthRE
    rw [RegularExpression.add_rmatch_iff]
    rcases hm with ⟨rfl, hb⟩ | ⟨rfl, hb⟩
    · left
      rw [RegularExpression.mul_rmatch_iff]
      exact ⟨['0'], [m2], rfl, (RegularExpression.char_rmatch_iff _ _).2 rfl,
        (rmatch_reCls _ _).2 ⟨m2, hb, rfl⟩⟩
    · right
      rw [RegularExpression.mul_rmatch_iff]
      exact ⟨['1'], [m2], rfl, (RegularExpression.char_rmatch_iff _ _).2 rfl,
        (rmatch_reCls _ _).2 ⟨m2, hb, rfl⟩⟩
  have hday : dayRE.rmatch [d1, d2] = true := by
    unfold dayRE
    rw [RegularExpression.add_rmatch_iff]
    rcases hd with ⟨ha, hb⟩ | ⟨rfl, hb⟩
    · left
      rw [RegularExpression.mul_rmatch_iff]
      exact ⟨[d1], [d2], rfl, (rmatch_reCls _ _).2 ⟨d1, ha, rfl⟩,
        (rmatch_reCls _ _).2 ⟨d2, hb, rfl⟩⟩
    · right
      rw [RegularExpression.mul_rmatch_iff]
      exact ⟨['3'], [d2], rfl, (RegularExpression.char_rmatch_iff _ _).2 rfl,
        (rmatch_reCls _ _).2 ⟨d2, hb, rfl⟩⟩
  unfold dateRE
  rw [RegularExpression.mul_rmatch_iff]
  refine ⟨[y1, y2, y3, y4], ['-', m1, m2, '-', d1, d2], rfl, ?_, ?_⟩
  · rw [RegularExpression.mul_rmatch_iff]
    refine ⟨[y1, y2, y3], [y4], rfl, ?_, hdig y4 hy4⟩
    rw [RegularExpression.mul_rmatch_iff]
    refine ⟨[y1, y2], [y3], rfl, ?_, hdig y3 hy3⟩
    rw [RegularExpression.mul_rmatch_iff]
    exact ⟨[y1], [y2], rfl, hdig y1 hy1, hdig y2 hy2⟩
  · rw [rmatch_optRE]
    left
    rw [RegularExpression.mul_rmatch_iff]
    refine ⟨['-', m1, m2], ['-', d1, d2], rfl, ?_, ?_⟩
    · rw [RegularExpression.mul_rmatch_iff]
      exact ⟨['-'], [m1, m2], rfl, (RegularExpression.char_rmatch_iff _ _).2 rfl, hmonth⟩
    · rw [rmatch_optRE]
      left
      rw [RegularExpression.mul_rmatch_iff]
      exact ⟨['-'], [d1, d2], rfl, (RegularExpression.char_rmatch_iff _ _).2 rfl, hday⟩

/-- C4 (amended): `validateEdtf` does reject a canonical `YYYY-MM` part whose
month field exceeds 12 and a canonical `YYYY-MM-DD` part whose day field
exceeds 31, but it does NOT reject extra `/` separators: on a string with two
slashes it checks only the first two pieces and ignores everything after the
second slash, so such a string passes whenever its first two pieces pass. -/
theorem claim_C4 :
    (∀ y1 y2 y3 y4 m1 m2 : Char,
      y1.isDigit = true → y2.isDigit = true → y3.isDigit = true → y4.isDigit = true →
      m1.isDigit = true → m2.isDigit = true → 12 < num2 m1 m2 →
      validateEdtf [y1, y2, y3, y4, '-', m1, m2] = false) ∧
    (∀ y1 y2 y3 y4 m1 m2 d1 d2 : Char,
      y1.isDigit = true → y2.isDigit = true → y3.isDigit = true → y4.isDigit = true →
      m1.isDigit = true → m2.isDigit = true → d1.isDigit = true → d2.isDigit = true →
      31 < num2 d1 d2 →
      validateEdtf [y1, y2, y3, y4, '-', m1, m2, '-', d1, d2] = false) ∧
    (∀ p1 p2 junk : List Char, '/' ∉ p1 → '/' ∉ p2 → p2 ≠ [] →
      validateEdtf (p1 ++ '/' :: (p2 ++ '/' :: junk)) =
        (validatePart p1 && validatePart p2)) := by
  refine ⟨?_, ?_, ?_⟩
  · intro y1 y2 y3 y4 m1 m2 hy1 hy2 hy3 hy4 hm1 hm2 hgt
    refine validate_ym_month y1 y2 y3 y4 m1 m2 hy1 hy2 hy3 hy4 hm1 hm2 ?_
    intro hok
    have := monthOKC_bounds m1 m2 hok
    omega
  · intro y1 y2 y3 y4 m1 m2 d1 d2 hy1 hy2 hy3 hy4 hm1 hm2 hd1 hd2 hgt
    refine validate_ymd_day y1 y2 y3 y4 m1 m2 d1 d2 hy1 hy2 hy3 hy4 hm1 hm2 hd1 hd2 ?_
    intro hok
    have := dayOKC_bounds d1 d2 hok
    omega
  · intro p1 p2 junk h1 h2 hne
    have hsp : splitSlash (p1 ++ '/' :: (p2 ++ '/' :: junk)) =
        p1 :: p2 :: splitSlash junk := by
      rw [splitSlash_append p1 _ h1, splitSlash_append p2 junk h2]
    unfold validateEdtf
    rw [hsp]
    show (validatePart p1 && (decide (p2 = []) || validatePart p2)) = _
    rw [decide_eq_false hne]
    simp

/-- Counterexample to C4 as stated: a string with two `/` separators that
`validateEdtf` nevertheless accepts. -/
theorem claim_C4_counterexample :
    validateEdtf (String.data "1930/1935/1940") = true := by decide

theorem claim_C4_witness :
    validateEdtf ['1', '9', '3', '0', '-', '1', '3'] = false ∧
    validateEdtf ['1', '9', '3', '0', '-', '0', '1', '-', '4', '5'] = false ∧
    validateEdtf (['1', '9', '3', '0'] ++ '/' :: (['1', '9', '3', '5'] ++ '/' ::
        ['1', '9', '4', '0'])) =
      (validatePart ['1', '9', '3', '0'] && validatePart ['1', '9', '3', '5']) :=
  ⟨claim_C4.1 '1' '9' '3' '0' '1' '3' (by decide) (by decide) (by decide) (by decide)
      (by decide) (by decide) (by decide),
   claim_C4.2.1 '1' '9' '3' '0' '0' '1' '4' '5' (by decide) (by decide) (by decide)
      (by decide) (by decide) (by decide) (by decide) (by decide) (by decide),
   claim_C4.2.2 ['1', '9', '3', '0'] ['1', '9', '3', '5'] ['1', '9', '4', '0']
      (by decide) (by decide) (by decide)⟩

/-- C5 (code bug): the claim promises that every `YYYY-MM-DD` with month 01-12
and day 01-31 passes the grammar validator, the day bound not being
calendar-aware.  The non-calendar-aware part is real (`1930-02-31` passes),
but the day alternation `[0-2][1-9]|3[0-1]` omits `0` from its second
character class, so the days `10` and `20` are rejected for every year: the
accepted day set is exactly the alternation, not 01-31. -/
theorem claim_C5 :
    (∀ y1 y2 y3 y4 : Char,
      y1.isDigit = true → y2.isDigit = true → y3.isDigit = true → y4.isDigit = true →
      validateEdtf [y1, y2, y3, y4, '-', '0', '1', '-', '1', '0'] = false ∧
      validateEdtf [y1, y2, y3, y4, '-', '0', '1', '-', '2', '0'] = false) ∧
    (∀ y1 y2 y3 y4 m1 m2 d1 d2 : Char,
      y1.isDigit = true → y2.isDigit = true → y3.isDigit = true → y4.isDigit = true →
      monthOKC m1 m2 → dayOKC d1 d2 →
      validateEdtf [y1, y2, y3, y4, '-', m1, m2, '-', d1, d2] = true) ∧
    validateEdtf (String.data "1930-02-31") = true ∧
    validateEdtf (String.data "1930-01-10") = false := by
  refine ⟨?_, ?_, by decide, by decide⟩
  · intro y1 y2 y3 y4 hy1 hy2 hy3 hy4
    exact ⟨validate_ymd_day y1 y2 y3 y4 '0' '1' '1' '0' hy1 hy2 hy3 hy4
        (by decide) (by decide) (by decide) (by decide) (by decide),
      validate_ymd_day y1 y2 y3 y4 '0' '1' '2' '0' hy1 hy2 hy3 hy4
        (by decide) (by decide) (by decide) (by decide) (by decide)⟩
  · intro y1 y2 y3 y4 m1 m2 d1 d2 hy1 hy2 hy3 hy4 hm hdy
    obtain ⟨hm1, hm2⟩ := monthOKC_digits m1 m2 hm
    obtain ⟨hd1, hd2⟩ := dayOKC_digits d1 d2 hdy
    have hre := dateRE_of_ymd y1 y2 y3 y4 m1 m2 d1 d2 hy1 hy2 hy3 hy4 hm hdy
    have hv := validatePart_of_date _ hre
    have hns : '/' ∉ [y1, y2, y3, y4, '-', m1, m2, '-', d1, d2] := by
      intro hmem
      simp only [List.mem_cons, List.not_mem_nil, or_false] at hmem
      rcases hmem with h | h | h | h | h | h | h | h | h | h
      exacts [digit_ne_slash y1 hy1 h.symm, digit_ne_slash y2 hy2 h.symm,
        digit_ne_slash y3 hy3 h.symm, digit_ne_slash y4 hy4 h.symm,
        absurd h (by decide), digit_ne_slash m1 hm1 h.symm,
        digit_ne_slash m2 hm2 h.symm, absurd h (by decide),
        digit_ne_slash d1 hd1 h.symm, digit_ne_slash d2 hd2 h.symm]
    rw [validateEdtf_single _ hns]
    exact hv

theorem claim_C5_witness :
    validateEdtf ['1', '9', '3', '0', '-', '0', '1', '-', '1', '0'] = false ∧
    validateEdtf ['1', '9', '3', '0', '-', '0', '1', '-', '2', '0'] = false ∧
    validateEdtf ['1', '9', '3', '0', '-', '1', '2', '-', '3', '1'] = true :=
  ⟨(claim_C5.1 '1' '9' '3' '0' (by decide) (by decide) (by decide) (by decide)).1,
   (claim_C5.1 '1' '9' '3' '0' (by decide) (by decide) (by decide) (by decide)).2,
   claim_C5.2.1 '1' '9' '3' '0' '1' '2' '3' '1' (by decide) (by decide) (by decide)
      (by decide) (by decide) (by decide)⟩
